import Mathlib

/-!
A shallow embedding of the arithmetic-expression lexer/parser pipeline
(`yohaan.py`): position tracking, tokenization, recursive-descent parsing
with precedence, and the `run` entry point.

Modelling conventions.

* Machine state is passed explicitly.  The lexer's mutable `Position`
  cursor object becomes a `Pos` value inside a `LexState`; the parser's
  `(tokens, tok_idx, current_tok)` becomes a `(current token, remaining
  tokens)` pair, which is faithful because `tok_idx` is never read except
  to fetch `current_tok`, and advancing past the end leaves `current_tok`
  unchanged.
* Python aliasing is made explicit: a `Token.pos_start`/`pos_end` field
  holds either an independent snapshot of a `Position` (a `.copy()`), or
  a reference to the lexer's single live `self.pos` object.  This is the
  `PosSlot` type; `resolveSlot` reads a slot once lexing has stopped.
* Loops and the recursive descent are defined with explicit fuel, so all
  definitions compute by kernel reduction.  `none` at the outer `Option`
  layer means the fuel ran out (or an unreachable runtime fault such as
  constructing a `Parser` from an empty token list); fuel-sufficiency is
  proved separately.
* Python `float` values are modelled by the exact decimal rational the
  literal denotes; `int(...)`/`float(...)` are translated on the string
  shapes the lexer actually produces (digits with at most one dot).
* `Position.fn` and `Position.ftxt` are omitted from `Pos`: they are set
  once, shared by every copy, and never consulted by the code under
  study, so `run` takes only the text.
-/

namespace Yohaan

/-- `Position` (idx/ln/col), modelled after the constructor-time
`advance()` has run: the Python object starts at `idx = -1, col = -1`
and is advanced once before any use, landing at `(0, 0, 0)`. -/
structure Pos where
  idx : Nat
  ln : Nat
  col : Nat
deriving DecidableEq

/-- `Position.advance(current_char)`: bump idx and col; on a newline also
bump the line and reset the column. -/
def posAdvance (p : Pos) (c : Option Char) : Pos :=
  let p1 : Pos := { p with idx := p.idx + 1, col := p.col + 1 }
  if c = some '\n' then { p1 with ln := p1.ln + 1, col := 0 } else p1

/-- `Position.advance()` with no argument, as used in `Token.__init__`. -/
def posPlus1 (p : Pos) : Pos := posAdvance p none

/-- A `Position`-valued field of a token or error.  `snap p` models
storing an independent `.copy()`; `cursor` models storing the lexer's
single live `self.pos` object (which later `advance` calls mutate). -/
inductive PosSlot where
  | snap (p : Pos)
  | cursor
deriving DecidableEq

/-- The position an observer reads from a slot after lexing has stopped
with final cursor value `final`. -/
def resolveSlot (final : Pos) : PosSlot → Pos
  | .snap p => p
  | .cursor => final

/-! Token type tags (the `TT_*` string constants). -/

def TT_INT : String := "INT"
def TT_FLOAT : String := "FLOAT"
def TT_PLUS : String := "PLUS"
def TT_MINUS : String := "MINUS"
def TT_MUL : String := "MUL"
def TT_DIV : String := "DIV"
def TT_LPAREN : String := "LPAREN"
def TT_RPAREN : String := "RPAREN"
def TT_EOF : String := "EOF"

/-- A token's literal value: `int(num_str)` or `float(num_str)`. -/
inductive Val where
  | VInt (n : Int)
  | VFloat (q : ℚ)
deriving DecidableEq

/-- `Token`: type tag, optional value, and the two position slots. -/
structure Tok where
  type : String
  value : Option Val
  pos_start : PosSlot
  pos_end : PosSlot
deriving DecidableEq

instance : Inhabited Tok := ⟨⟨TT_EOF, none, .cursor, .cursor⟩⟩

/-- `Error`: name string (`'Illegal Character'` / `'Invalid Syntax'`),
details, and the span slots. -/
structure Err where
  error_name : String
  details : String
  pos_start : PosSlot
  pos_end : PosSlot
deriving DecidableEq

/-! ## Lexer -/

/-- Lexer state: the full text plus the live cursor.  `current_char` is
derived: `advance` always sets it to `text[idx]` when in range and
`None` otherwise, which is exactly `text[idx]?`. -/
structure LexState where
  text : List Char
  pos : Pos
deriving DecidableEq

def cur (s : LexState) : Option Char := s.text[s.pos.idx]?

/-- `Lexer.advance`: move the cursor past the current character. -/
def lexAdvance (s : LexState) : LexState :=
  { s with pos := posAdvance s.pos (cur s) }

/-- `Lexer.__init__` after its single constructor `advance()`. -/
def mkLexer (text : List Char) : LexState :=
  { text := text, pos := ⟨0, 0, 0⟩ }

def DIGITS : List Char := ['0','1','2','3','4','5','6','7','8','9']

/-- The characters `make_number` consumes: `DIGITS + '.'`. -/
def numChars : List Char := DIGITS ++ ['.']

def natOfDigits (ds : List Char) : Nat :=
  ds.foldl (fun a c => 10 * a + (c.toNat - '0'.toNat)) 0

/-- `int(num_str)` on the all-digits strings `make_number` produces. -/
def intOfNumStr (ds : List Char) : Int := (natOfDigits ds : Int)

/-- `float(num_str)` on digits-with-one-dot strings, as the exact
decimal rational the literal denotes. -/
def floatOfNumStr (ds : List Char) : ℚ :=
  let ip := ds.takeWhile (fun c => c ≠ '.')
  let fp := (ds.dropWhile (fun c => c ≠ '.')).drop 1
  mkRat (natOfDigits ip * 10 ^ fp.length + natOfDigits fp) (10 ^ fp.length)

/-- The `while` loop of `make_number`: accumulate digit/dot characters,
breaking at a second dot (left unconsumed) or a non-number character. -/
def make_number_loop : Nat → LexState → List Char → Nat →
    Option (List Char × Nat × LexState)
  | 0, _, _, _ => none
  | fuel+1, s, numStr, dotCount =>
    match cur s with
    | none => some (numStr, dotCount, s)
    | some c =>
      if c ∈ numChars then
        if c = '.' then
          if dotCount = 1 then some (numStr, dotCount, s)
          else make_number_loop fuel (lexAdvance s) (numStr ++ [c]) (dotCount + 1)
        else make_number_loop fuel (lexAdvance s) (numStr ++ [c]) dotCount
      else some (numStr, dotCount, s)

/-- Fuel that always suffices for the character-consuming loops. -/
def lexFuel (s : LexState) : Nat := s.text.length + 1 - s.pos.idx

/-- `Lexer.make_number`.  The token's `pos_start` is a snapshot of the
copied start position; its `pos_end` is the live `self.pos` object
(`Token.__init__` stores the passed `pos_end` without copying). -/
def make_number (s : LexState) : Option (Tok × LexState) :=
  let pos_start := s.pos
  match make_number_loop (lexFuel s) s [] 0 with
  | none => none
  | some (numStr, dotCount, s1) =>
    if dotCount = 0 then
      some (⟨TT_INT, some (.VInt (intOfNumStr numStr)), .snap pos_start, .cursor⟩, s1)
    else
      some (⟨TT_FLOAT, some (.VFloat (floatOfNumStr numStr)), .snap pos_start, .cursor⟩, s1)

/-- A single-character token (or EOF): `Token(tt, pos_start=self.pos)`
copies the position twice, so both slots are snapshots. -/
def simpleTok (tt : String) (p : Pos) : Tok :=
  ⟨tt, none, .snap p, .snap (posPlus1 p)⟩

/-- The main loop of `Lexer.make_tokens`. -/
def make_tokens_loop : Nat → LexState → List Tok →
    Option (List Tok × Option Err × LexState)
  | 0, _, _ => none
  | fuel+1, s, toks =>
    match cur s with
    | none => some (toks ++ [simpleTok TT_EOF s.pos], none, s)
    | some c =>
      if c = ' ' ∨ c = '\t' then
        make_tokens_loop fuel (lexAdvance s) toks
      else if c ∈ DIGITS then
        match make_number s with
        | none => none
        | some (t, s1) => make_tokens_loop fuel s1 (toks ++ [t])
      else if c = '+' then
        make_tokens_loop fuel (lexAdvance s) (toks ++ [simpleTok TT_PLUS s.pos])
      else if c = '-' then
        make_tokens_loop fuel (lexAdvance s) (toks ++ [simpleTok TT_MINUS s.pos])
      else if c = '*' then
        make_tokens_loop fuel (lexAdvance s) (toks ++ [simpleTok TT_MUL s.pos])
      else if c = '/' then
        make_tokens_loop fuel (lexAdvance s) (toks ++ [simpleTok TT_DIV s.pos])
      else if c = '(' then
        make_tokens_loop fuel (lexAdvance s) (toks ++ [simpleTok TT_LPAREN s.pos])
      else if c = ')' then
        make_tokens_loop fuel (lexAdvance s) (toks ++ [simpleTok TT_RPAREN s.pos])
      else
        some ([], some ⟨"Illegal Character", "'" ++ String.mk [c] ++ "'",
          .snap s.pos, .cursor⟩, lexAdvance s)

/-- `Lexer.make_tokens`, returning the tokens-or-error pair together
with the lexer's final state (the live cursor the `cursor` slots
alias). -/
def make_tokens (s : LexState) : Option (List Tok × Option Err × LexState) :=
  make_tokens_loop (lexFuel s) s []

/-! ## AST nodes -/

/-- AST nodes.  Child slots are `Option Node` because the Python node
constructors store whatever `ParseResult.register` returned, which is
`None` when the sub-result carried no node. -/
inductive Node where
  | NumberNode (tok : Tok)
  | BinOpNode (left_node : Option Node) (op_tok : Tok) (right_node : Option Node)
  | UnaryOpNode (op_tok : Tok) (node : Option Node)

/-! ## ParseResult -/

/-- `ParseResult`: the error/node pair threaded through every parser
method.  NB: `failure` sets the error without clearing the node. -/
structure ParseResult where
  error : Option Err
  node : Option Node

/-- `ParseResult.register` on a `ParseResult` argument: copy the
sub-result's error (if any) into `res` and hand back its node.  The
`res.register(self.advance())` calls pass a `Token`, not a
`ParseResult`, and have no effect on `res`; they are modelled as plain
state advances at the call sites. -/
def registerPR (res sub : ParseResult) : ParseResult × Option Node :=
  ({ res with error := if sub.error.isSome then sub.error else res.error }, sub.node)

def ParseResult.success (res : ParseResult) (n : Option Node) : ParseResult :=
  { res with node := n }

def ParseResult.failure (res : ParseResult) (e : Err) : ParseResult :=
  { res with error := some e }

/-! ## Parser -/

/-- Parser state: `current_tok` and the tokens after it. -/
abbrev PSt := Tok × List Tok

/-- `Parser.advance`: step to the next token; past the end,
`current_tok` stays what it was. -/
def pAdvance : PSt → PSt
  | (c, []) => (c, [])
  | (_, t :: ts) => (t, ts)

/-- The `while` loop of `Parser.bin_op`, carrying the accumulated `res`
and `left`. -/
def bin_op_loop (func : PSt → Option (ParseResult × PSt)) (ops : List String) :
    Nat → ParseResult → Option Node → PSt → Option (ParseResult × PSt)
  | 0, _, _, _ => none
  | fuel+1, res, left, st =>
    if st.1.type ∈ ops then
      let op_tok := st.1
      match func (pAdvance st) with
      | none => none
      | some (sub, st2) =>
        let rr := registerPR res sub
        if rr.1.error.isSome then some (rr.1, st2)
        else bin_op_loop func ops fuel rr.1 (some (.BinOpNode left op_tok rr.2)) st2
    else some (res.success left, st)

/-- `Parser.bin_op(func, ops)`. -/
def bin_op (func : PSt → Option (ParseResult × PSt)) (ops : List String) :
    Nat → PSt → Option (ParseResult × PSt)
  | 0, _ => none
  | fuel+1, st =>
    match func st with
    | none => none
    | some (sub, st1) =>
      let rr := registerPR ⟨none, none⟩ sub
      if rr.1.error.isSome then some (rr.1, st1)
      else bin_op_loop func ops fuel rr.1 rr.2 st1

/-- Selector for the three mutually recursive productions. -/
inductive PFn where
  | pfactor | pterm | pexpr
deriving DecidableEq

/-- `Parser.factor` / `Parser.term` / `Parser.expr`, merged into one
fuel-indexed function so the mutual recursion is structural on the
fuel. -/
def parseFn : Nat → PFn → PSt → Option (ParseResult × PSt)
  | 0, _, _ => none
  | fuel+1, .pfactor, st =>
    let tok := st.1
    if tok.type = TT_PLUS ∨ tok.type = TT_MINUS then
      match parseFn fuel .pfactor (pAdvance st) with
      | none => none
      | some (sub, st1) =>
        let rr := registerPR ⟨none, none⟩ sub
        if rr.1.error.isSome then some (rr.1, st1)
        else some (rr.1.success (some (.UnaryOpNode tok rr.2)), st1)
    else if tok.type = TT_INT ∨ tok.type = TT_FLOAT then
      some ((ParseResult.mk none none).success (some (.NumberNode tok)), pAdvance st)
    else if tok.type = TT_LPAREN then
      match parseFn fuel .pexpr (pAdvance st) with
      | none => none
      | some (sub, st1) =>
        let rr := registerPR ⟨none, none⟩ sub
        if rr.1.error.isSome then some (rr.1, st1)
        else if st1.1.type = TT_RPAREN then
          some (rr.1.success rr.2, pAdvance st1)
        else
          some (rr.1.failure ⟨"Invalid Syntax", "Expected ')'",
            st1.1.pos_start, st1.1.pos_end⟩, st1)
    else
      some ((ParseResult.mk none none).failure ⟨"Invalid Syntax",
        "Expected number or '('", tok.pos_start, tok.pos_end⟩, st)
  | fuel+1, .pterm, st => bin_op (fun s => parseFn fuel .pfactor s) [TT_MUL, TT_DIV] fuel st
  | fuel+1, .pexpr, st => bin_op (fun s => parseFn fuel .pterm s) [TT_PLUS, TT_MINUS] fuel st

def factor (fuel : Nat) (st : PSt) : Option (ParseResult × PSt) := parseFn fuel .pfactor st
def term (fuel : Nat) (st : PSt) : Option (ParseResult × PSt) := parseFn fuel .pterm st
def expr (fuel : Nat) (st : PSt) : Option (ParseResult × PSt) := parseFn fuel .pexpr st

/-- Fuel given to the recursive descent; proved sufficient below. -/
def parseFuel (toks : List Tok) : Nat := 3 * toks.length + 3

/-- `Parser.parse`: one `expr`, then the trailing-token check.  An empty
token list (never produced by a successful lexer run) would crash the
Python constructor; it is mapped to `none`. -/
def parse (toks : List Tok) : Option (ParseResult × PSt) :=
  match toks with
  | [] => none
  | t :: ts =>
    match parseFn (parseFuel toks) .pexpr (t, ts) with
    | none => none
    | some (res, st) =>
      if res.error.isNone ∧ st.1.type ≠ TT_EOF then
        some (res.failure ⟨"Invalid Syntax", "Expected '+', '-', '*' or '/'",
          st.1.pos_start, st.1.pos_end⟩, st)
      else some (res, st)

/-- `run(fn, text)`: lex, short-circuit on a lexical error, else parse
and return `(ast.node, ast.error)`. -/
def run (text : List Char) : Option (Option Node × Option Err) :=
  match make_tokens (mkLexer text) with
  | none => none
  | some (_, some e, _) => some (none, some e)
  | some (toks, none, _) =>
    match parse toks with
    | none => none
    | some (res, _) => some (res.node, res.error)

/-! ## Observation and specification scaffolding -/

/-- The token list a parser state stands for: the current token followed
by the remaining ones. -/
def toksOf (st : PSt) : List Tok := st.1 :: st.2

/-- The last reachable token is EOF-typed (true of every token list a
successful lexer run hands to the parser). -/
def lastIsEOF (st : PSt) : Prop := (st.2.getLastD st.1).type = TT_EOF

/-- Space/tab-only strings: the only whitespace the lexer skips. -/
def wsOnly (w : List Char) : Prop := ∀ c ∈ w, c = ' ' ∨ c = '\t'

/-- `make_tokens_loop` at its canonical (always sufficient) fuel. -/
def mtRun (s : LexState) (acc : List Tok) :
    Option (List Tok × Option Err × LexState) :=
  make_tokens_loop (lexFuel s) s acc

/-- `make_number_loop` at its canonical fuel. -/
def mnRun (s : LexState) (numStr : List Char) (dotCount : Nat) :
    Option (List Char × Nat × LexState) :=
  make_number_loop (lexFuel s) s numStr dotCount

/-- The characters the lexer consumes as whitespace or one-character
tokens. -/
def plainTokChars : List Char := [' ', '\t', '+', '-', '*', '/', '(', ')']

/-- How a token's position slots are filled: the start is always a
snapshot; the end is the live cursor exactly for number tokens. -/
def SlotsOK (t : Tok) : Prop :=
  (∃ p, t.pos_start = .snap p) ∧
  ((t.type = TT_INT ∨ t.type = TT_FLOAT) → t.pos_end = .cursor) ∧
  (¬(t.type = TT_INT ∨ t.type = TT_FLOAT) → ∃ p, t.pos_end = .snap p)

/-- A parse result carries exactly one of node and error. -/
def NodeXorErr (r : ParseResult) : Prop :=
  (r.node.isSome ∧ r.error = none) ∨ (r.node = none ∧ r.error.isSome)

/-- The token-type language of the grammar
`expr := term ((PLUS|MINUS) term)*`, `term := factor ((MUL|DIV) factor)*`,
`factor := (PLUS|MINUS) factor | INT | FLOAT | LPAREN expr RPAREN`.
Levels: 0 = factor, 1 = term, 2 = expr, 3 = term tail, 4 = expr tail. -/
inductive Gram : Nat → List String → Prop where
  | int : Gram 0 [TT_INT]
  | float : Gram 0 [TT_FLOAT]
  | un (t : String) (f : List String) :
      (t = TT_PLUS ∨ t = TT_MINUS) → Gram 0 f → Gram 0 (t :: f)
  | paren (e : List String) : Gram 2 e → Gram 0 (TT_LPAREN :: e ++ [TT_RPAREN])
  | tnil : Gram 3 []
  | tcons (t : String) (f r : List String) :
      (t = TT_MUL ∨ t = TT_DIV) → Gram 0 f → Gram 3 r → Gram 3 (t :: f ++ r)
  | term (f r : List String) : Gram 0 f → Gram 3 r → Gram 1 (f ++ r)
  | enil : Gram 4 []
  | econs (t : String) (a r : List String) :
      (t = TT_PLUS ∨ t = TT_MINUS) → Gram 1 a → Gram 4 r → Gram 4 (t :: a ++ r)
  | expr (a r : List String) : Gram 1 a → Gram 4 r → Gram 2 (a ++ r)

/-- The valid arithmetic expressions of the grammar at the character
level: integer and decimal literals, unary and binary `+ - * /`,
balanced parentheses, with arbitrary runs of spaces/tabs between
tokens.  Levels as in `Gram`. -/
inductive VG : Nat → List Char → Prop where
  | int (ds : List Char) : ds ≠ [] → (∀ c ∈ ds, c ∈ DIGITS) → VG 0 ds
  | dec (ip fp : List Char) : ip ≠ [] → (∀ c ∈ ip, c ∈ DIGITS) →
      (∀ c ∈ fp, c ∈ DIGITS) → VG 0 (ip ++ '.' :: fp)
  | un (c : Char) (w f : List Char) : (c = '+' ∨ c = '-') → wsOnly w →
      VG 0 f → VG 0 (c :: w ++ f)
  | paren (w1 w2 : List Char) (e : List Char) : wsOnly w1 → wsOnly w2 →
      VG 2 e → VG 0 ('(' :: w1 ++ e ++ w2 ++ [')'])
  | tnil : VG 3 []
  | tcons (w1 w2 : List Char) (c : Char) (f r : List Char) : wsOnly w1 →
      (c = '*' ∨ c = '/') → wsOnly w2 → VG 0 f → VG 3 r →
      VG 3 (w1 ++ c :: w2 ++ f ++ r)
  | term (f r : List Char) : VG 0 f → VG 3 r → VG 1 (f ++ r)
  | enil : VG 4 []
  | econs (w1 w2 : List Char) (c : Char) (t r : List Char) : wsOnly w1 →
      (c = '+' ∨ c = '-') → wsOnly w2 → VG 1 t → VG 4 r →
      VG 4 (w1 ++ c :: w2 ++ t ++ r)
  | expr (t r : List Char) : VG 1 t → VG 4 r → VG 2 (t ++ r)

/-- A valid arithmetic-expression input: a level-2 (`expr`) derivation,
possibly padded with leading and trailing spaces/tabs. -/
def ValidExprString (s : List Char) : Prop :=
  ∃ w1 w2 core, wsOnly w1 ∧ wsOnly w2 ∧ VG 2 core ∧ s = w1 ++ core ++ w2

/-! ## Concrete evaluations used by the claims -/

/-- C5: multiplication binds tighter than addition: `run "2 + 3 * 4"`
produces `BinaryOp(Number(2), +, BinaryOp(Number(3), *, Number(4)))`
(and no error). -/
theorem C5_mul_binds_tighter :
    run "2 + 3 * 4".toList =
      some (some (.BinOpNode
        (some (.NumberNode ⟨TT_INT, some (.VInt 2), .snap ⟨0,0,0⟩, .cursor⟩))
        ⟨TT_PLUS, none, .snap ⟨2,0,2⟩, .snap ⟨3,0,3⟩⟩
        (some (.BinOpNode
          (some (.NumberNode ⟨TT_INT, some (.VInt 3), .snap ⟨4,0,4⟩, .cursor⟩))
          ⟨TT_MUL, none, .snap ⟨6,0,6⟩, .snap ⟨7,0,7⟩⟩
          (some (.NumberNode ⟨TT_INT, some (.VInt 4), .snap ⟨8,0,8⟩, .cursor⟩))))),
       none) := rfl

/-- C6: same-precedence operators fold left-associatively:
`run "8 - 3 - 2"` produces `BinaryOp(BinaryOp(8, -, 3), -, 2)`. -/
theorem C6_left_assoc :
    run "8 - 3 - 2".toList =
      some (some (.BinOpNode
        (some (.BinOpNode
          (some (.NumberNode ⟨TT_INT, some (.VInt 8), .snap ⟨0,0,0⟩, .cursor⟩))
          ⟨TT_MINUS, none, .snap ⟨2,0,2⟩, .snap ⟨3,0,3⟩⟩
          (some (.NumberNode ⟨TT_INT, some (.VInt 3), .snap ⟨4,0,4⟩, .cursor⟩))))
        ⟨TT_MINUS, none, .snap ⟨6,0,6⟩, .snap ⟨7,0,7⟩⟩
        (some (.NumberNode ⟨TT_INT, some (.VInt 2), .snap ⟨8,0,8⟩, .cursor⟩))),
       none) := rfl

/-- C7: `run "(1 + 2"` returns a null AST and an `Invalid Syntax` error
with detail `Expected ')'` whose span `[6,7)` is exactly the span of the
EOF token the lexer emitted for this input. -/
theorem C7_missing_rparen :
    run "(1 + 2".toList =
      some (none, some ⟨"Invalid Syntax", "Expected ')'",
        .snap ⟨6,0,6⟩, .snap ⟨7,0,7⟩⟩) ∧
    make_tokens (mkLexer "(1 + 2".toList) =
      some ([⟨TT_LPAREN, none, .snap ⟨0,0,0⟩, .snap ⟨1,0,1⟩⟩,
             ⟨TT_INT, some (.VInt 1), .snap ⟨1,0,1⟩, .cursor⟩,
             ⟨TT_PLUS, none, .snap ⟨3,0,3⟩, .snap ⟨4,0,4⟩⟩,
             ⟨TT_INT, some (.VInt 2), .snap ⟨5,0,5⟩, .cursor⟩,
             ⟨TT_EOF, none, .snap ⟨6,0,6⟩, .snap ⟨7,0,7⟩⟩],
            none, ⟨"(1 + 2".toList, ⟨6,0,6⟩⟩) :=
  ⟨rfl, rfl⟩

/-- C10: on the empty input the lexer succeeds with only the EOF token
(spanning `[0,1)`), and `run` returns a null AST with an
`Invalid Syntax` error `Expected number or '('` anchored at that
span. -/
theorem C10_empty_input :
    make_tokens (mkLexer ([] : List Char)) =
      some ([⟨TT_EOF, none, .snap ⟨0,0,0⟩, .snap ⟨1,0,1⟩⟩], none, ⟨[], ⟨0,0,0⟩⟩) ∧
    run ([] : List Char) =
      some (none, some ⟨"Invalid Syntax", "Expected number or '('",
        .snap ⟨0,0,0⟩, .snap ⟨1,0,1⟩⟩) :=
  ⟨rfl, rfl⟩

/-- C1 counterexample: on the trailing-garbage input `"1 + 2 )"` the
claimed null AST does not happen: `run` returns the parsed `1 + 2` tree
*and* the `Invalid Syntax` error — both components are non-null. -/
theorem C1_counterexample :
    run "1 + 2 )".toList =
      some (some (.BinOpNode
        (some (.NumberNode ⟨TT_INT, some (.VInt 1), .snap ⟨0,0,0⟩, .cursor⟩))
        ⟨TT_PLUS, none, .snap ⟨2,0,2⟩, .snap ⟨3,0,3⟩⟩
        (some (.NumberNode ⟨TT_INT, some (.VInt 2), .snap ⟨4,0,4⟩, .cursor⟩))),
       some ⟨"Invalid Syntax", "Expected '+', '-', '*' or '/'",
        .snap ⟨6,0,6⟩, .snap ⟨7,0,7⟩⟩) := rfl

/-- C2 counterexample: on `"3.14.15"` the error `run` returns is the
lexer's `Illegal Character` error for the second dot, not a parser
`Invalid Syntax` error. -/
theorem C2_counterexample :
    run "3.14.15".toList =
      some (none, some ⟨"Illegal Character", "'.'", .snap ⟨4,0,4⟩, .cursor⟩) := rfl

/-- C2 amended: `make_number` does consume exactly `3.14` into a single
`Float` token of value 3.14 and leaves the second dot unconsumed (the
lexer stops at index 4); but `make_tokens` then hits the unconsumed dot
in its `else` branch, so the whole run fails with `Illegal Character`
`'.'` and a null AST — no tokens and no parser error are produced. -/
theorem C2_amended_second_dot :
    make_number (mkLexer "3.14.15".toList) =
      some (⟨TT_FLOAT, some (.VFloat (mkRat 157 50)), .snap ⟨0,0,0⟩, .cursor⟩,
            ⟨"3.14.15".toList, ⟨4,0,4⟩⟩) ∧
    make_tokens (mkLexer "3.14.15".toList) =
      some ([], some ⟨"Illegal Character", "'.'", .snap ⟨4,0,4⟩, .cursor⟩,
            ⟨"3.14.15".toList, ⟨5,0,5⟩⟩) ∧
    run "3.14.15".toList =
      some (none, some ⟨"Illegal Character", "'.'", .snap ⟨4,0,4⟩, .cursor⟩) :=
  ⟨rfl, rfl, rfl⟩

/-- C3 counterexample: lexing `"1 "` emits an `INT` token whose
`pos_end` is the live cursor, not a snapshot; by the time lexing ends
the cursor has moved to index 2, so the token's observed end position
is `(2,0,2)` instead of the position just after the digit, `(1,0,1)`. -/
theorem C3_counterexample :
    make_tokens (mkLexer "1 ".toList) =
      some ([⟨TT_INT, some (.VInt 1), .snap ⟨0,0,0⟩, .cursor⟩,
             ⟨TT_EOF, none, .snap ⟨2,0,2⟩, .snap ⟨3,0,3⟩⟩],
            none, ⟨"1 ".toList, ⟨2,0,2⟩⟩) ∧
    resolveSlot ⟨2,0,2⟩ .cursor = (⟨2,0,2⟩ : Pos) ∧
    (⟨2,0,2⟩ : Pos) ≠ ⟨1,0,1⟩ :=
  ⟨rfl, rfl, by decide⟩

/-- C9 counterexample: on the input consisting of one newline, the
line-increment branch of `Position.advance` *is* executed: the
`Illegal Character` error's `pos_end` aliases the cursor, whose final
value is `(idx 1, line 1, col 0)` — its line is 1, not 0. -/
theorem C9_counterexample :
    make_tokens (mkLexer ['\n']) =
      some ([], some ⟨"Illegal Character", "'\n'", .snap ⟨0,0,0⟩, .cursor⟩,
            ⟨['\n'], ⟨1,1,0⟩⟩) ∧
    (resolveSlot ⟨1,1,0⟩ .cursor).ln = 1 :=
  ⟨rfl, rfl⟩

/-! ## Position and cursor lemmas -/

theorem posAdvance_idx (p : Pos) (c : Option Char) :
    (posAdvance p c).idx = p.idx + 1 := by
  unfold posAdvance; split <;> rfl

theorem lexAdvance_text (s : LexState) : (lexAdvance s).text = s.text := rfl

theorem lexAdvance_idx (s : LexState) :
    (lexAdvance s).pos.idx = s.pos.idx + 1 := posAdvance_idx _ _

theorem cur_lt_length {s : LexState} {c : Char} (h : cur s = some c) :
    s.pos.idx < s.text.length := by
  have := List.getElem?_eq_some.mp h
  exact this.1

theorem cur_none_ge {s : LexState} (h : cur s = none) :
    s.text.length ≤ s.pos.idx := by
  by_contra hlt
  simp [cur, List.getElem?_eq_getElem (lt_of_not_le hlt)] at h

theorem lexFuel_succ {s : LexState} {c : Char} (h : cur s = some c) :
    lexFuel s = lexFuel (lexAdvance s) + 1 := by
  have := cur_lt_length h
  unfold lexFuel
  rw [lexAdvance_text, lexAdvance_idx]
  omega

theorem cur_eq_head_drop (s : LexState) :
    cur s = (s.text.drop s.pos.idx).head? := by
  rw [List.head?_drop]; rfl

/-! ## make_number_loop lemmas -/

theorem mnRun_none {s : LexState} {ns : List Char} {dc : Nat}
    (hc : cur s = none) (hle : s.pos.idx ≤ s.text.length) :
    mnRun s ns dc = some (ns, dc, s) := by
  obtain ⟨m, hm⟩ : ∃ m, lexFuel s = m + 1 := ⟨lexFuel s - 1, by unfold lexFuel; omega⟩
  rw [mnRun, hm]
  simp [make_number_loop, hc]

theorem mnRun_stop {s : LexState} {ns : List Char} {dc : Nat} {c : Char}
    (hc : cur s = some c) (hn : c ∉ numChars) :
    mnRun s ns dc = some (ns, dc, s) := by
  rw [mnRun, lexFuel_succ hc]
  simp [make_number_loop, hc, hn]

theorem mnRun_dotstop {s : LexState} {ns : List Char}
    (hc : cur s = some '.') :
    mnRun s ns 1 = some (ns, 1, s) := by
  rw [mnRun, lexFuel_succ hc]
  simp [make_number_loop, hc]

theorem mnRun_digit {s : LexState} {ns : List Char} {dc : Nat} {c : Char}
    (hc : cur s = some c) (hd : c ∈ numChars) (hnd : c ≠ '.') :
    mnRun s ns dc = mnRun (lexAdvance s) (ns ++ [c]) dc := by
  rw [mnRun, lexFuel_succ hc]
  simp [make_number_loop, hc, hd, hnd]
  rfl

theorem mnRun_dot {s : LexState} {ns : List Char} {dc : Nat}
    (hc : cur s = some '.') (hdc : dc ≠ 1) :
    mnRun s ns dc = mnRun (lexAdvance s) (ns ++ ['.']) (dc + 1) := by
  rw [mnRun, lexFuel_succ hc]
  simp [make_number_loop, hc, hdc, numChars, mnRun]

theorem mnl_isSome {fuel : Nat} : ∀ {s : LexState} {ns : List Char} {dc : Nat},
    s.pos.idx ≤ s.text.length → lexFuel s ≤ fuel →
    (make_number_loop fuel s ns dc).isSome := by
  induction fuel with
  | zero =>
    intro s ns dc hle h
    exact absurd h (by unfold lexFuel; omega)
  | succ n ih =>
    intro s ns dc hle h
    rw [make_number_loop]
    cases hc : cur s with
    | none => simp
    | some c =>
      have hf := lexFuel_succ hc
      have hlt := cur_lt_length hc
      have hle1 : (lexAdvance s).pos.idx ≤ (lexAdvance s).text.length := by
        rw [lexAdvance_text, lexAdvance_idx]; omega
      by_cases h1 : c ∈ numChars <;> simp [h1]
      · by_cases h2 : c = '.' <;> simp [h2]
        · by_cases h3 : dc = 1 <;> simp [h3]
          exact ih hle1 (by omega)
        · exact ih hle1 (by omega)

theorem mnl_state {fuel : Nat} : ∀ {s : LexState} {ns : List Char} {dc : Nat}
    {r : List Char × Nat × LexState},
    make_number_loop fuel s ns dc = some r → s.pos.idx ≤ s.text.length →
    r.2.2.text = s.text ∧ s.pos.idx ≤ r.2.2.pos.idx ∧
      r.2.2.pos.idx ≤ s.text.length := by
  induction fuel with
  | zero => intro s ns dc r h; simp [make_number_loop] at h
  | succ n ih =>
    intro s ns dc r h hle
    rw [make_number_loop] at h
    cases hc : cur s with
    | none =>
      rw [hc] at h
      simp at h
      subst h
      exact ⟨rfl, le_refl _, hle⟩
    | some c =>
      rw [hc] at h
      have hlt := cur_lt_length hc
      have hle1 : (lexAdvance s).pos.idx ≤ (lexAdvance s).text.length := by
        rw [lexAdvance_text, lexAdvance_idx]; omega
      by_cases h1 : c ∈ numChars <;> simp [h1] at h
      · by_cases h2 : c = '.' <;> simp [h2] at h
        · by_cases h3 : dc = 1 <;> simp [h3] at h
          · subst h; exact ⟨rfl, le_refl _, hle⟩
          · have := ih h hle1
            rw [lexAdvance_text, lexAdvance_idx] at this
            exact ⟨this.1, by omega, this.2.2⟩
        · have := ih h hle1
          rw [lexAdvance_text, lexAdvance_idx] at this
          exact ⟨this.1, by omega, this.2.2⟩
      · subst h; exact ⟨rfl, le_refl _, hle⟩

theorem mnl_stops_before {fuel : Nat} :
    ∀ {s : LexState} {ns : List Char} {dc : Nat}
    {r : List Char × Nat × LexState} {j : Nat} {c : Char},
    make_number_loop fuel s ns dc = some r →
    s.pos.idx ≤ j → s.text[j]? = some c → c ∉ numChars →
    r.2.2.pos.idx ≤ j := by
  induction fuel with
  | zero => intro s ns dc r j c h; simp [make_number_loop] at h
  | succ n ih =>
    intro s ns dc r j c h hj hcj hcn
    rw [make_number_loop] at h
    cases hc : cur s with
    | none =>
      rw [hc] at h; simp at h; subst h; exact hj
    | some c0 =>
      rw [hc] at h
      by_cases h1 : c0 ∈ numChars
      · have hne : s.pos.idx ≠ j := by
          intro he
          have hcc : cur s = s.text[j]? := by rw [cur, he]
          rw [hc, hcj] at hcc
          cases hcc
          exact hcn h1
        simp [h1] at h
        by_cases h2 : c0 = '.' <;> simp [h2] at h
        · by_cases h3 : dc = 1 <;> simp [h3] at h
          · subst h; exact hj
          · exact ih h (by rw [lexAdvance_idx]; omega)
              (by rw [lexAdvance_text]; exact hcj) hcn
        · exact ih h (by rw [lexAdvance_idx]; omega)
            (by rw [lexAdvance_text]; exact hcj) hcn
      · simp [h1] at h; subst h; exact hj

/-! ## make_number lemmas -/

theorem make_number_eq (s : LexState) (hle : s.pos.idx ≤ s.text.length) :
    ∃ t s1, make_number s = some (t, s1) ∧ s1.text = s.text ∧
      s.pos.idx ≤ s1.pos.idx ∧ s1.pos.idx ≤ s.text.length ∧
      t.pos_start = .snap s.pos ∧ t.pos_end = .cursor ∧
      (t.type = TT_INT ∨ t.type = TT_FLOAT) := by
  obtain ⟨r, hr⟩ := Option.isSome_iff_exists.mp
    (@mnl_isSome (lexFuel s) s [] 0 hle (le_refl _))
  obtain ⟨ns, dc, s1⟩ := r
  have hst := mnl_state hr hle
  by_cases hdc : dc = 0
  · refine ⟨⟨TT_INT, some (.VInt (intOfNumStr ns)), .snap s.pos, .cursor⟩, s1,
      ?_, hst.1, hst.2.1, hst.2.2, rfl, rfl, Or.inl rfl⟩
    unfold make_number
    rw [hr]
    simp [hdc]
  · refine ⟨⟨TT_FLOAT, some (.VFloat (floatOfNumStr ns)), .snap s.pos, .cursor⟩, s1,
      ?_, hst.1, hst.2.1, hst.2.2, rfl, rfl, Or.inr rfl⟩
    unfold make_number
    rw [hr]
    simp [hdc]

theorem make_number_strict {s : LexState} {c : Char} {t : Tok} {s1 : LexState}
    (hc : cur s = some c) (hd : c ∈ DIGITS)
    (h : make_number s = some (t, s1)) : s.pos.idx < s1.pos.idx := by
  have hd' : c ∈ numChars := by unfold numChars; exact List.mem_append_left _ hd
  have hnd : c ≠ '.' := by
    intro he; rw [he] at hd; exact absurd hd (by decide)
  have hstep := @mnRun_digit s [] 0 c hc hd' hnd
  have hlt := cur_lt_length hc
  unfold make_number at h
  rw [show make_number_loop (lexFuel s) s [] 0 = mnRun s [] 0 from rfl, hstep] at h
  simp only [List.nil_append] at h
  cases hmn : mnRun (lexAdvance s) [c] 0 with
  | none => rw [hmn] at h; simp at h
  | some r =>
    rw [hmn] at h
    obtain ⟨ns1, dc1, s2⟩ := r
    rw [mnRun] at hmn
    have hst := mnl_state hmn (by rw [lexAdvance_text, lexAdvance_idx]; omega)
    rw [lexAdvance_text, lexAdvance_idx] at hst
    have h21 : s.pos.idx + 1 ≤ s2.pos.idx := hst.2.1
    by_cases hdc : dc1 = 0 <;> simp [hdc] at h <;>
      [rw [← h.2]; rw [← h.2]] <;> omega

theorem make_number_stops_before {s : LexState} {t : Tok} {s1 : LexState}
    {j : Nat} {c : Char} (h : make_number s = some (t, s1))
    (hj : s.pos.idx ≤ j) (hcj : s.text[j]? = some c) (hcn : c ∉ numChars) :
    s1.pos.idx ≤ j := by
  unfold make_number at h
  cases hmn : make_number_loop (lexFuel s) s [] 0 with
  | none => rw [hmn] at h; simp at h
  | some r =>
    rw [hmn] at h
    obtain ⟨ns1, dc1, s2⟩ := r
    have := mnl_stops_before hmn hj hcj hcn
    by_cases hdc : dc1 = 0 <;> simp [hdc] at h <;> rw [← h.2] <;> exact this

/-! ## make_tokens lemmas -/

theorem slotsOK_simple (tt : String) (p : Pos) (h1 : tt ≠ TT_INT)
    (h2 : tt ≠ TT_FLOAT) : SlotsOK (simpleTok tt p) :=
  ⟨⟨p, rfl⟩, fun hh => absurd hh (by simp [simpleTok, h1, h2]),
   fun _ => ⟨posPlus1 p, rfl⟩⟩

theorem slots_append {acc : List Tok} {t0 : Tok}
    (hacc : ∀ t ∈ acc, SlotsOK t) (hnew : SlotsOK t0) :
    ∀ t ∈ acc ++ [t0], SlotsOK t := by
  intro t ht
  rcases List.mem_append.mp ht with h1 | h1
  · exact hacc t h1
  · rw [List.mem_singleton.mp h1]; exact hnew

/-- Master lemma about the lexer loop: with sufficient fuel it returns;
all emitted tokens have snapshot starts and live-cursor ends exactly for
number tokens; a successful run appends tokens ending in EOF; every
error is an `Illegal Character` error; and a pending character that is
neither a plain token character nor a digit/dot forces an error. -/
theorem mtl_main {fuel : Nat} : ∀ {s : LexState} {acc : List Tok},
    s.pos.idx ≤ s.text.length → lexFuel s ≤ fuel →
    ∃ toks oe s1, make_tokens_loop fuel s acc = some (toks, oe, s1) ∧
      ((∀ t ∈ acc, SlotsOK t) → ∀ t ∈ toks, SlotsOK t) ∧
      (oe = none → ∃ pre p, toks = acc ++ pre ++ [simpleTok TT_EOF p]) ∧
      (∀ e, oe = some e → e.error_name = "Illegal Character") ∧
      (∀ j c, s.pos.idx ≤ j → s.text[j]? = some c → c ∉ plainTokChars →
        c ∉ numChars → oe.isSome) := by
  induction fuel with
  | zero => intro s acc hle h; exact absurd h (by unfold lexFuel; omega)
  | succ n ih =>
    intro s acc hle h
    cases hc : cur s with
    | none =>
      refine ⟨acc ++ [simpleTok TT_EOF s.pos], none, s,
        by rw [make_tokens_loop, hc], ?_, ?_, by simp, ?_⟩
      · intro hacc
        exact slots_append hacc (slotsOK_simple _ _ (by decide) (by decide))
      · intro _; exact ⟨[], s.pos, by simp⟩
      · intro j c hj hcj _ _
        exfalso
        have h1 := cur_none_ge hc
        have h2 : j < s.text.length := (List.getElem?_eq_some.mp hcj).1
        omega
    | some c =>
      have hlt := cur_lt_length hc
      have hle1 : (lexAdvance s).pos.idx ≤ (lexAdvance s).text.length := by
        rw [lexAdvance_text, lexAdvance_idx]; omega
      have hf1 : lexFuel (lexAdvance s) ≤ n := by
        have := lexFuel_succ hc; omega
      have curj : ∀ {j : Nat} {c' : Char}, s.pos.idx = j → s.text[j]? = some c' →
          c = c' := by
        intro j c' he hcj
        have hcc : cur s = s.text[j]? := by rw [cur, he]
        rw [hc, hcj] at hcc
        exact Option.some.inj hcc
      by_cases hw : c = ' ' ∨ c = '\t'
      · obtain ⟨toks, oe, s1, heq, hslots, heof, herr, hunrec⟩ :=
          @ih (lexAdvance s) acc hle1 hf1
        refine ⟨toks, oe, s1, ?_, hslots, heof, herr, ?_⟩
        · rw [make_tokens_loop, hc]; simp only [if_pos hw]; exact heq
        · intro j c' hj hcj hcp hcn
          have hne : s.pos.idx ≠ j := by
            intro he
            rcases curj he hcj with rfl
            rcases hw with rfl | rfl <;> exact hcp (by decide)
          exact hunrec j c' (by rw [lexAdvance_idx]; omega)
            (by rw [lexAdvance_text]; exact hcj) hcp hcn
      · by_cases hdg : c ∈ DIGITS
        · obtain ⟨t0, s1', hmn, htext, hidx, hlen, hps, hpe, hty⟩ :=
            make_number_eq s hle
          have hstrict := make_number_strict hc hdg hmn
          have hle1' : s1'.pos.idx ≤ s1'.text.length := by
            rw [htext]; exact hlen
          have hf1' : lexFuel s1' ≤ n := by
            unfold lexFuel at h ⊢; rw [htext]; omega
          obtain ⟨toks, oe, s1, heq, hslots, heof, herr, hunrec⟩ :=
            @ih s1' (acc ++ [t0]) hle1' hf1'
          refine ⟨toks, oe, s1, ?_, ?_, ?_, herr, ?_⟩
          · rw [make_tokens_loop, hc]
            simp only [if_neg hw, if_pos hdg, hmn]
            exact heq
          · intro hacc
            exact hslots (slots_append hacc ⟨⟨_, hps⟩, fun _ => hpe,
              fun hn => absurd hty hn⟩)
          · intro hnone
            obtain ⟨pre, p, hpre⟩ := heof hnone
            exact ⟨t0 :: pre, p, by rw [hpre]; simp⟩
          · intro j c' hj hcj hcp hcn
            have hstop := make_number_stops_before hmn hj hcj hcn
            exact hunrec j c' hstop (by rw [htext]; exact hcj) hcp hcn
        · have opcase : ∀ tt : String, tt ≠ TT_INT → tt ≠ TT_FLOAT →
              c ∈ plainTokChars →
              (make_tokens_loop (n+1) s acc =
                make_tokens_loop n (lexAdvance s) (acc ++ [simpleTok tt s.pos])) →
              ∃ toks oe s1, make_tokens_loop (n+1) s acc = some (toks, oe, s1) ∧
                ((∀ t ∈ acc, SlotsOK t) → ∀ t ∈ toks, SlotsOK t) ∧
                (oe = none → ∃ pre p, toks = acc ++ pre ++ [simpleTok TT_EOF p]) ∧
                (∀ e, oe = some e → e.error_name = "Illegal Character") ∧
                (∀ j c', s.pos.idx ≤ j → s.text[j]? = some c' →
                  c' ∉ plainTokChars → c' ∉ numChars → oe.isSome) := by
            intro tt ht1 ht2 hcp0 hstep
            obtain ⟨toks, oe, s1, heq, hslots, heof, herr, hunrec⟩ :=
              @ih (lexAdvance s) (acc ++ [simpleTok tt s.pos]) hle1 hf1
            refine ⟨toks, oe, s1, by rw [hstep]; exact heq, ?_, ?_, herr, ?_⟩
            · intro hacc
              exact hslots (slots_append hacc (slotsOK_simple _ _ ht1 ht2))
            · intro hnone
              obtain ⟨pre, p, hpre⟩ := heof hnone
              exact ⟨simpleTok tt s.pos :: pre, p, by rw [hpre]; simp⟩
            · intro j c' hj hcj hcp hcn
              have hne : s.pos.idx ≠ j := by
                intro he
                rcases curj he hcj with rfl
                exact hcp hcp0
              exact hunrec j c' (by rw [lexAdvance_idx]; omega)
                (by rw [lexAdvance_text]; exact hcj) hcp hcn
          by_cases h1 : c = '+'
          · subst h1
            exact opcase TT_PLUS (by decide) (by decide) (by decide)
              (by rw [make_tokens_loop, hc]; simp [hw, hdg])
          · by_cases h2 : c = '-'
            · subst h2
              exact opcase TT_MINUS (by decide) (by decide) (by decide)
                (by rw [make_tokens_loop, hc]; simp [hw, hdg])
            · by_cases h3 : c = '*'
              · subst h3
                exact opcase TT_MUL (by decide) (by decide) (by decide)
                  (by rw [make_tokens_loop, hc]; simp [hw, hdg])
              · by_cases h4 : c = '/'
                · subst h4
                  exact opcase TT_DIV (by decide) (by decide) (by decide)
                    (by rw [make_tokens_loop, hc]; simp [hw, hdg])
                · by_cases h5 : c = '('
                  · subst h5
                    exact opcase TT_LPAREN (by decide) (by decide) (by decide)
                      (by rw [make_tokens_loop, hc]; simp [hw, hdg])
                  · by_cases h6 : c = ')'
                    · subst h6
                      exact opcase TT_RPAREN (by decide) (by decide) (by decide)
                        (by rw [make_tokens_loop, hc]; simp [hw, hdg])
                    · refine ⟨[], some ⟨"Illegal Character",
                        "'" ++ String.mk [c] ++ "'", .snap s.pos, .cursor⟩,
                        lexAdvance s, ?_, ?_, ?_, ?_, ?_⟩
                      · rw [make_tokens_loop, hc]
                        simp [hw, hdg, h1, h2, h3, h4, h5, h6]
                      · intro _ t ht; exact absurd ht (by simp)
                      · intro hnone; exact absurd hnone (by simp)
                      · intro e he
                        rw [← Option.some.inj he]
                      · intro _ _ _ _ _ _; rfl

/-! ## Parser state lemmas -/

theorem pAdv_len (st : PSt) : (pAdvance st).2.length ≤ st.2.length := by
  obtain ⟨c, l⟩ := st
  cases l <;> simp [pAdvance]

theorem pAdv_len_lt {st : PSt} (h : st.2 ≠ []) :
    (pAdvance st).2.length < st.2.length := by
  obtain ⟨c, l⟩ := st
  cases l with
  | nil => exact absurd rfl h
  | cons t ts => simp [pAdvance]

theorem pAdv_eof {st : PSt} (h : lastIsEOF st) : lastIsEOF (pAdvance st) := by
  obtain ⟨c, l⟩ := st
  cases l with
  | nil => exact h
  | cons t ts =>
    unfold lastIsEOF at h ⊢
    simp only [pAdvance]
    rw [List.getLastD_cons] at h
    exact h

theorem lastEOF_ne_nil {st : PSt} (h : lastIsEOF st) (hne : st.1.type ≠ TT_EOF) :
    st.2 ≠ [] := by
  intro hnil
  obtain ⟨c, l⟩ := st
  subst hnil
  exact hne h

/-! ## Parser invariants: exactly-one result, token consumption, EOF
preservation -/

theorem bol_main (f : PSt → Option (ParseResult × PSt)) (ops : List String)
    (hf : ∀ st r st', f st = some (r, st') →
      NodeXorErr r ∧ st'.2.length ≤ st.2.length ∧
      (lastIsEOF st → lastIsEOF st')) :
    ∀ (fuel : Nat) (res : ParseResult) (left : Option Node) (st : PSt)
      (r : ParseResult) (st' : PSt),
      res.error = none → res.node = none → left.isSome →
      bin_op_loop f ops fuel res left st = some (r, st') →
      NodeXorErr r ∧ st'.2.length ≤ st.2.length ∧
        (lastIsEOF st → lastIsEOF st') := by
  intro fuel
  induction fuel with
  | zero => intro res left st r st' _ _ _ h; simp [bin_op_loop] at h
  | succ n ih =>
    intro res left st r st' hres hnode hleft h
    rw [bin_op_loop] at h
    by_cases hop : st.1.type ∈ ops
    · rw [if_pos hop] at h
      cases hfs : f (pAdvance st) with
      | none => rw [hfs] at h; simp at h
      | some p =>
        obtain ⟨sub, st2⟩ := p
        rw [hfs] at h
        have hfp := hf _ _ _ hfs
        have hlen2 : st2.2.length ≤ st.2.length :=
          le_trans hfp.2.1 (pAdv_len st)
        have heof2 : lastIsEOF st → lastIsEOF st2 :=
          fun he => hfp.2.2 (pAdv_eof he)
        by_cases he : (registerPR res sub).1.error.isSome
        · simp only [he, if_true] at h
          obtain ⟨h1, h2⟩ := Prod.mk.injEq .. ▸ Option.some.inj h
          subst h1; subst h2
          refine ⟨Or.inr ⟨?_, he⟩, hlen2, heof2⟩
          simp [registerPR, hnode]
        · simp only [he, if_false] at h
          have hrr : (registerPR res sub).1.error = none :=
            Option.not_isSome_iff_eq_none.mp he
          have := ih (registerPR res sub).1
            (some (.BinOpNode left st.1 (registerPR res sub).2)) st2 r st'
            hrr (by simp [registerPR, hnode]) (by simp) h
          exact ⟨this.1, le_trans this.2.1 hlen2,
            fun hx => this.2.2 (heof2 hx)⟩
    · rw [if_neg hop] at h
      obtain ⟨h1, h2⟩ := Prod.mk.injEq .. ▸ Option.some.inj h
      subst h1; subst h2
      exact ⟨Or.inl ⟨by simpa [ParseResult.success] using hleft,
        by simp [ParseResult.success, hres]⟩, le_refl _, fun hx => hx⟩

theorem bin_op_main (f : PSt → Option (ParseResult × PSt)) (ops : List String)
    (hf : ∀ st r st', f st = some (r, st') →
      NodeXorErr r ∧ st'.2.length ≤ st.2.length ∧
      (lastIsEOF st → lastIsEOF st') ∧
      (lastIsEOF st → r.error = none → st'.2.length < st.2.length)) :
    ∀ (fuel : Nat) (st : PSt) (r : ParseResult) (st' : PSt),
      bin_op f ops fuel st = some (r, st') →
      NodeXorErr r ∧ st'.2.length ≤ st.2.length ∧
        (lastIsEOF st → lastIsEOF st') ∧
        (lastIsEOF st → r.error = none → st'.2.length < st.2.length) := by
  intro fuel st r st' h
  match fuel, h with
  | fuel+1, h =>
    rw [bin_op] at h
    cases hfs : f st with
    | none => rw [hfs] at h; simp at h
    | some p =>
      obtain ⟨sub, st1⟩ := p
      rw [hfs] at h
      have hfp := hf _ _ _ hfs
      by_cases he : (registerPR ⟨none, none⟩ sub).1.error.isSome
      · simp only [he, if_true] at h
        obtain ⟨h1, h2⟩ := Prod.mk.injEq .. ▸ Option.some.inj h
        subst h1; subst h2
        refine ⟨Or.inr ⟨by simp [registerPR], he⟩, hfp.2.1, hfp.2.2.1, ?_⟩
        intro _ herr
        rw [herr] at he
        simp at he
      · have hsubE : sub.error = none := by
          by_contra hne
          have : sub.error.isSome := Option.ne_none_iff_isSome.mp hne
          exact he (by simp [registerPR, this])
        have hsubN : sub.node.isSome := by
          rcases hfp.1 with ⟨h1, _⟩ | ⟨_, h2⟩
          · exact h1
          · rw [hsubE] at h2; simp at h2
        simp only [he, if_false] at h
        have hloop := bol_main f ops (fun st r st' hh => ⟨(hf _ _ _ hh).1,
            (hf _ _ _ hh).2.1, (hf _ _ _ hh).2.2.1⟩)
          fuel (registerPR ⟨none, none⟩ sub).1 (registerPR ⟨none, none⟩ sub).2
          st1 r st' (Option.not_isSome_iff_eq_none.mp he) (by simp [registerPR])
          (by simpa [registerPR] using hsubN) h
        refine ⟨hloop.1, le_trans hloop.2.1 hfp.2.1,
          fun hx => hloop.2.2 (hfp.2.2.1 hx), ?_⟩
        intro hx _
        exact lt_of_le_of_lt hloop.2.1 (hfp.2.2.2 hx hsubE)

theorem parseFn_main : ∀ (fuel : Nat) (k : PFn) (st : PSt) (r : ParseResult)
    (st' : PSt), parseFn fuel k st = some (r, st') →
    NodeXorErr r ∧ st'.2.length ≤ st.2.length ∧
      (lastIsEOF st → lastIsEOF st') ∧
      (lastIsEOF st → r.error = none → st'.2.length < st.2.length) := by
  intro fuel
  induction fuel with
  | zero => intro k st r st' h; simp [parseFn] at h
  | succ n ih =>
    intro k st r st' h
    cases k with
    | pterm =>
      rw [parseFn] at h
      exact bin_op_main _ _ (fun st r st' hh => ih .pfactor st r st' hh) n st r st' h
    | pexpr =>
      rw [parseFn] at h
      exact bin_op_main _ _ (fun st r st' hh => ih .pterm st r st' hh) n st r st' h
    | pfactor =>
      rw [parseFn] at h
      by_cases hpm : st.1.type = TT_PLUS ∨ st.1.type = TT_MINUS
      · rw [if_pos hpm] at h
        have hne : st.1.type ≠ TT_EOF := by
          rcases hpm with h1 | h1 <;> rw [h1] <;> decide
        cases hfs : parseFn n .pfactor (pAdvance st) with
        | none => rw [hfs] at h; simp at h
        | some p =>
          obtain ⟨sub, st1⟩ := p
          rw [hfs] at h
          have hfp := ih .pfactor _ _ _ hfs
          have hlen1 : st1.2.length ≤ st.2.length :=
            le_trans hfp.2.1 (pAdv_len st)
          have heof1 : lastIsEOF st → lastIsEOF st1 :=
            fun he => hfp.2.2.1 (pAdv_eof he)
          have hstrict1 : lastIsEOF st → st1.2.length < st.2.length := by
            intro hx
            exact lt_of_le_of_lt hfp.2.1 (pAdv_len_lt (lastEOF_ne_nil hx hne))
          by_cases he : (registerPR ⟨none, none⟩ sub).1.error.isSome
          · simp only [he, if_true] at h
            obtain ⟨h1, h2⟩ := Prod.mk.injEq .. ▸ Option.some.inj h
            subst h1; subst h2
            refine ⟨Or.inr ⟨by simp [registerPR], he⟩, hlen1, heof1, ?_⟩
            intro _ herr
            rw [herr] at he; simp at he
          · simp only [he, if_false] at h
            obtain ⟨h1, h2⟩ := Prod.mk.injEq .. ▸ Option.some.inj h
            subst h1; subst h2
            refine ⟨Or.inl ⟨by simp [ParseResult.success], ?_⟩, hlen1, heof1,
              fun hx _ => hstrict1 hx⟩
            simp [ParseResult.success]
            exact Option.not_isSome_iff_eq_none.mp he
      · rw [if_neg hpm] at h
        by_cases hif : st.1.type = TT_INT ∨ st.1.type = TT_FLOAT
        · rw [if_pos hif] at h
          have hne : st.1.type ≠ TT_EOF := by
            rcases hif with h1 | h1 <;> rw [h1] <;> decide
          obtain ⟨h1, h2⟩ := Prod.mk.injEq .. ▸ Option.some.inj h
          subst h1; subst h2
          refine ⟨Or.inl (by simp [ParseResult.success]), pAdv_len st,
            pAdv_eof, ?_⟩
          intro hx _
          exact pAdv_len_lt (lastEOF_ne_nil hx hne)
        · rw [if_neg hif] at h
          by_cases hlp : st.1.type = TT_LPAREN
          · rw [if_pos hlp] at h
            have hne : st.1.type ≠ TT_EOF := by rw [hlp]; decide
            cases hfs : parseFn n .pexpr (pAdvance st) with
            | none => rw [hfs] at h; simp at h
            | some p =>
              obtain ⟨sub, st1⟩ := p
              rw [hfs] at h
              have hfp := ih .pexpr _ _ _ hfs
              have hlen1 : st1.2.length ≤ st.2.length :=
                le_trans hfp.2.1 (pAdv_len st)
              have heof1 : lastIsEOF st → lastIsEOF st1 :=
                fun he => hfp.2.2.1 (pAdv_eof he)
              have hstrict1 : lastIsEOF st → st1.2.length < st.2.length := by
                intro hx
                exact lt_of_le_of_lt hfp.2.1 (pAdv_len_lt (lastEOF_ne_nil hx hne))
              by_cases he : (registerPR ⟨none, none⟩ sub).1.error.isSome
              · simp only [he, if_true] at h
                obtain ⟨h1, h2⟩ := Prod.mk.injEq .. ▸ Option.some.inj h
                subst h1; subst h2
                refine ⟨Or.inr ⟨by simp [registerPR], he⟩, hlen1, heof1, ?_⟩
                intro _ herr
                rw [herr] at he; simp at he
              · simp only [he, if_false] at h
                have hsubE : sub.error = none := by
                  by_contra hne2
                  have : sub.error.isSome := Option.ne_none_iff_isSome.mp hne2
                  exact he (by simp [registerPR, this])
                have hsubN : sub.node.isSome := by
                  rcases hfp.1 with ⟨h1, _⟩ | ⟨_, h2⟩
                  · exact h1
                  · rw [hsubE] at h2; simp at h2
                by_cases hrp : st1.1.type = TT_RPAREN
                · rw [if_pos hrp] at h
                  obtain ⟨h1, h2⟩ := Prod.mk.injEq .. ▸ Option.some.inj h
                  subst h1; subst h2
                  refine ⟨Or.inl ⟨by simpa [ParseResult.success, registerPR]
                      using hsubN,
                    by simp [ParseResult.success, registerPR, hsubE]⟩,
                    le_trans (pAdv_len st1) hlen1,
                    fun hx => pAdv_eof (heof1 hx),
                    fun hx _ => lt_of_le_of_lt (pAdv_len st1) (hstrict1 hx)⟩
                · rw [if_neg hrp] at h
                  obtain ⟨h1, h2⟩ := Prod.mk.injEq .. ▸ Option.some.inj h
                  subst h1; subst h2
                  refine ⟨Or.inr ⟨by simp [ParseResult.failure, registerPR],
                    by simp [ParseResult.failure]⟩, hlen1, heof1, ?_⟩
                  intro _ herr
                  simp [ParseResult.failure] at herr
          · rw [if_neg hlp] at h
            obtain ⟨h1, h2⟩ := Prod.mk.injEq .. ▸ Option.some.inj h
            subst h1; subst h2
            refine ⟨Or.inr ⟨by simp [ParseResult.failure], by
              simp [ParseResult.failure]⟩, le_refl _, fun hx => hx, ?_⟩
            intro _ herr
            simp [ParseResult.failure] at herr

/-- Every `parse` result either carries exactly one of node/error, or is
the top-level trailing-garbage failure: node set together with the
`Expected '+', '-', '*' or '/'` error. -/
theorem parse_cases {toks : List Tok} {r : ParseResult} {st : PSt}
    (h : parse toks = some (r, st)) :
    NodeXorErr r ∨ (r.node.isSome ∧ ∃ e, r.error = some e ∧
      e.error_name = "Invalid Syntax" ∧
      e.details = "Expected '+', '-', '*' or '/'") := by
  cases toks with
  | nil => simp [parse] at h
  | cons t ts =>
    cases hp : parseFn (parseFuel (t :: ts)) .pexpr (t, ts) with
    | none => simp [parse, hp] at h
    | some p =>
      obtain ⟨res, st0⟩ := p
      have hEO := (parseFn_main _ _ _ _ _ hp).1
      by_cases hcond : res.error.isNone = true ∧ st0.1.type ≠ TT_EOF
      · have heq : parse (t :: ts) =
            some (res.failure ⟨"Invalid Syntax", "Expected '+', '-', '*' or '/'",
              st0.1.pos_start, st0.1.pos_end⟩, st0) := by
          simp only [parse, hp]
          rw [if_pos hcond]
        rw [heq] at h
        obtain ⟨h1, h2⟩ := Prod.mk.injEq .. ▸ Option.some.inj h
        subst h1; subst h2
        right
        have hnode : res.node.isSome := by
          rcases hEO with ⟨hn, _⟩ | ⟨_, he⟩
          · exact hn
          · rw [Option.isNone_iff_eq_none.mp hcond.1] at he; simp at he
        exact ⟨by simpa [ParseResult.failure] using hnode, _, rfl, rfl, rfl⟩
      · have heq : parse (t :: ts) = some (res, st0) := by
          simp only [parse, hp]
          rw [if_neg hcond]
        rw [heq] at h
        obtain ⟨h1, h2⟩ := Prod.mk.injEq .. ▸ Option.some.inj h
        subst h1; subst h2
        exact Or.inl hEO

/-- C1 amended: `run` never returns two nulls; exactly one of the pair
is non-null on success and on lexical failure, and on every syntax
failure except the top-level trailing-garbage check, where the parsed
AST is returned alongside the `Expected '+', '-', '*' or '/'` error. -/
theorem C1_amended_pair : ∀ (text : List Char) (r : Option Node × Option Err),
    run text = some r →
    (r.1.isSome ∧ r.2 = none) ∨ (r.1 = none ∧ r.2.isSome) ∨
    (r.1.isSome ∧ ∃ e, r.2 = some e ∧ e.error_name = "Invalid Syntax" ∧
      e.details = "Expected '+', '-', '*' or '/'") := by
  intro text r h
  cases hmt : make_tokens (mkLexer text) with
  | none =>
    rw [show run text = none from by simp [run, hmt]] at h
    simp at h
  | some p =>
    obtain ⟨toks, oe, s1⟩ := p
    cases oe with
    | some e =>
      rw [show run text = some (none, some e) from by simp [run, hmt]] at h
      rw [← Option.some.inj h]
      exact Or.inr (Or.inl ⟨rfl, by simp⟩)
    | none =>
      cases hp : parse toks with
      | none =>
        rw [show run text = none from by simp [run, hmt, hp]] at h
        simp at h
      | some q =>
        obtain ⟨res, st⟩ := q
        rw [show run text = some (res.node, res.error) from by
          simp [run, hmt, hp]] at h
        rw [← Option.some.inj h]
        rcases parse_cases hp with (⟨hn, he⟩ | ⟨hn, he⟩) | ⟨hn, e, he⟩
        · exact Or.inl ⟨hn, he⟩
        · exact Or.inr (Or.inl ⟨hn, he⟩)
        · exact Or.inr (Or.inr ⟨hn, e, he⟩)

/-- Witness for the amended C1, at the success input `"1"`. -/
theorem C1_amended_pair_witness :
    ((some (Node.NumberNode ⟨TT_INT, some (.VInt 1), .snap ⟨0,0,0⟩, .cursor⟩),
        (none : Option Err)).1.isSome ∧
      (some (Node.NumberNode ⟨TT_INT, some (.VInt 1), .snap ⟨0,0,0⟩, .cursor⟩),
        (none : Option Err)).2 = none) ∨
    ((some (Node.NumberNode ⟨TT_INT, some (.VInt 1), .snap ⟨0,0,0⟩, .cursor⟩),
        (none : Option Err)).1 = none ∧
      (some (Node.NumberNode ⟨TT_INT, some (.VInt 1), .snap ⟨0,0,0⟩, .cursor⟩),
        (none : Option Err)).2.isSome) ∨
    ((some (Node.NumberNode ⟨TT_INT, some (.VInt 1), .snap ⟨0,0,0⟩, .cursor⟩),
        (none : Option Err)).1.isSome ∧
      ∃ e, (some (Node.NumberNode ⟨TT_INT, some (.VInt 1), .snap ⟨0,0,0⟩, .cursor⟩),
        (none : Option Err)).2 = some e ∧ e.error_name = "Invalid Syntax" ∧
        e.details = "Expected '+', '-', '*' or '/'") :=
  C1_amended_pair "1".toList _ rfl

/-- C3 amended: every emitted token's `pos_start` is a snapshot, and so
is `pos_end` for single-character and EOF tokens; but a number token's
`pos_end` is the live cursor, so later lexer advancement changes its
observed end position. -/
theorem C3_amended_slots : ∀ (text : List Char) (toks : List Tok)
    (oe : Option Err) (s1 : LexState),
    make_tokens (mkLexer text) = some (toks, oe, s1) →
    ∀ t ∈ toks, SlotsOK t := by
  intro text toks oe s1 h t ht
  obtain ⟨toks1, oe1, s2, heq, hslots, _, _, _⟩ :=
    @mtl_main (lexFuel (mkLexer text)) (mkLexer text) [] (by simp [mkLexer]) (le_refl _)
  rw [make_tokens] at h
  rw [h] at heq
  obtain ⟨h1, h2, h3⟩ := Prod.mk.injEq .. ▸ Option.some.inj heq
  subst h1
  exact hslots (by simp) t ht

/-- Witness for the amended C3, at the `INT` token of `"1 "`. -/
theorem C3_amended_slots_witness :
    SlotsOK ⟨TT_INT, some (.VInt 1), .snap ⟨0,0,0⟩, .cursor⟩ :=
  C3_amended_slots "1 ".toList
    [⟨TT_INT, some (.VInt 1), .snap ⟨0,0,0⟩, .cursor⟩,
     ⟨TT_EOF, none, .snap ⟨2,0,2⟩, .snap ⟨3,0,3⟩⟩]
    none ⟨"1 ".toList, ⟨2,0,2⟩⟩ rfl _ (List.mem_cons_self _ _)

/-- C9 amended: any input containing a newline makes `run` return a
null AST and an `Illegal Character` error (the lexer skips only space
and tab); however the line-increment branch is not unreachable — it
runs exactly when the offending character is the newline itself, as the
counterexample shows. -/
theorem C9_amended_newline : ∀ (text : List Char), '\n' ∈ text →
    ∃ e, run text = some (none, some e) ∧
      e.error_name = "Illegal Character" := by
  intro text hmem
  obtain ⟨j, hjlt, hj⟩ := List.mem_iff_getElem.mp hmem
  have hj' : text[j]? = some '\n' := by
    rw [List.getElem?_eq_getElem hjlt, hj]
  obtain ⟨toks, oe, s1, heq, _, _, herr, hunrec⟩ :=
    @mtl_main (lexFuel (mkLexer text)) (mkLexer text) [] (by simp [mkLexer]) (le_refl _)
  have hsome := hunrec j '\n' (by simp [mkLexer]) hj' (by decide) (by decide)
  obtain ⟨e, he⟩ := Option.isSome_iff_exists.mp hsome
  subst he
  refine ⟨e, ?_, herr e rfl⟩
  unfold run
  rw [show make_tokens (mkLexer text) = some (toks, some e, s1) from heq]

/-- Witness for the amended C9, at the input `"\n"`. -/
theorem C9_amended_newline_witness :
    ∃ e, run ['\n'] = some (none, some e) ∧
      e.error_name = "Illegal Character" :=
  C9_amended_newline ['\n'] (by simp)

/-! ## Fuel sufficiency: the recursive descent always returns on
EOF-terminated token lists -/

theorem bol_suff (f : PSt → Option (ParseResult × PSt)) (ops : List String)
    (n : Nat) (hops : TT_EOF ∉ ops)
    (hf_suff : ∀ s' : PSt, s'.2.length ≤ n → lastIsEOF s' → (f s').isSome)
    (hf_main : ∀ st r st', f st = some (r, st') →
      NodeXorErr r ∧ st'.2.length ≤ st.2.length ∧
      (lastIsEOF st → lastIsEOF st') ∧
      (lastIsEOF st → r.error = none → st'.2.length < st.2.length)) :
    ∀ (g : Nat) (st : PSt) (res : ParseResult) (left : Option Node),
      st.2.length ≤ n → lastIsEOF st → st.2.length + 1 ≤ g →
      (bin_op_loop f ops g res left st).isSome := by
  intro g
  induction g with
  | zero => intro st res left _ _ hg; exact absurd hg (by omega)
  | succ m ih =>
    intro st res left hn heof hg
    rw [bin_op_loop]
    by_cases hop : st.1.type ∈ ops
    · rw [if_pos hop]
      have hne : st.1.type ≠ TT_EOF := fun he => hops (he ▸ hop)
      have hne2 : st.2 ≠ [] := lastEOF_ne_nil heof hne
      have hlt : (pAdvance st).2.length < st.2.length := pAdv_len_lt hne2
      have hfs := hf_suff (pAdvance st) (by omega) (pAdv_eof heof)
      obtain ⟨p, hp⟩ := Option.isSome_iff_exists.mp hfs
      obtain ⟨sub, st2⟩ := p
      rw [hp]
      by_cases he : (registerPR res sub).1.error.isSome
      · simp [he]
      · simp only [he, if_false]
        have hm := hf_main _ _ _ hp
        have hsubE : sub.error = none := by
          by_contra hne3
          exact he (by simp [registerPR, Option.ne_none_iff_isSome.mp hne3])
        have hstrict := hm.2.2.2 (pAdv_eof heof) hsubE
        exact ih st2 _ _ (by omega) (hm.2.2.1 (pAdv_eof heof)) (by omega)
    · rw [if_neg hop]; simp

theorem bin_op_suff (f : PSt → Option (ParseResult × PSt)) (ops : List String)
    (n : Nat) (hops : TT_EOF ∉ ops)
    (hf_suff : ∀ s' : PSt, s'.2.length ≤ n → lastIsEOF s' → (f s').isSome)
    (hf_main : ∀ st r st', f st = some (r, st') →
      NodeXorErr r ∧ st'.2.length ≤ st.2.length ∧
      (lastIsEOF st → lastIsEOF st') ∧
      (lastIsEOF st → r.error = none → st'.2.length < st.2.length)) :
    ∀ (g : Nat) (st : PSt), st.2.length ≤ n → lastIsEOF st → n + 1 ≤ g →
      (bin_op f ops g st).isSome := by
  intro g st hn heof hg
  obtain ⟨m, rfl⟩ : ∃ m, g = m + 1 := ⟨g - 1, by omega⟩
  rw [bin_op]
  have hfs := hf_suff st hn heof
  obtain ⟨p, hp⟩ := Option.isSome_iff_exists.mp hfs
  obtain ⟨sub, st1⟩ := p
  rw [hp]
  by_cases he : (registerPR ⟨none, none⟩ sub).1.error.isSome
  · simp [he]
  · simp only [he, if_false]
    have hm := hf_main _ _ _ hp
    have hsubE : sub.error = none := by
      by_contra hne3
      exact he (by simp [registerPR, Option.ne_none_iff_isSome.mp hne3])
    have hstrict := hm.2.2.2 heof hsubE
    exact bol_suff f ops n hops hf_suff hf_main m st1 _ _
      (by omega) (hm.2.2.1 heof) (by omega)

theorem parseFn_suff : ∀ n : Nat,
    (∀ st : PSt, st.2.length ≤ n → lastIsEOF st →
      ∀ fuel, 3 * n + 1 ≤ fuel → (parseFn fuel .pfactor st).isSome) ∧
    (∀ st : PSt, st.2.length ≤ n → lastIsEOF st →
      ∀ fuel, 3 * n + 2 ≤ fuel → (parseFn fuel .pterm st).isSome) ∧
    (∀ st : PSt, st.2.length ≤ n → lastIsEOF st →
      ∀ fuel, 3 * n + 3 ≤ fuel → (parseFn fuel .pexpr st).isSome) := by
  intro n
  induction n using Nat.strong_induction_on with
  | _ n ih =>
    have Hfac : ∀ st : PSt, st.2.length ≤ n → lastIsEOF st →
        ∀ fuel, 3 * n + 1 ≤ fuel → (parseFn fuel .pfactor st).isSome := by
      intro st hn heof fuel hfuel
      obtain ⟨m, rfl⟩ : ∃ m, fuel = m + 1 := ⟨fuel - 1, by omega⟩
      rw [parseFn]
      by_cases hpm : st.1.type = TT_PLUS ∨ st.1.type = TT_MINUS
      · rw [if_pos hpm]
        have hne : st.1.type ≠ TT_EOF := by
          rcases hpm with h1 | h1 <;> rw [h1] <;> decide
        have hne2 : st.2 ≠ [] := lastEOF_ne_nil heof hne
        have hpos : 0 < st.2.length := List.length_pos.mpr hne2
        have hlt := pAdv_len_lt hne2
        have hrec := (ih (n - 1) (by omega)).1 (pAdvance st) (by omega)
          (pAdv_eof heof) m (by omega)
        obtain ⟨p, hp⟩ := Option.isSome_iff_exists.mp hrec
        obtain ⟨sub, st1⟩ := p
        rw [hp]
        by_cases he : (registerPR ⟨none, none⟩ sub).1.error.isSome <;> simp [he]
      · rw [if_neg hpm]
        by_cases hif : st.1.type = TT_INT ∨ st.1.type = TT_FLOAT
        · rw [if_pos hif]; simp
        · rw [if_neg hif]
          by_cases hlp : st.1.type = TT_LPAREN
          · rw [if_pos hlp]
            have hne : st.1.type ≠ TT_EOF := by rw [hlp]; decide
            have hne2 : st.2 ≠ [] := lastEOF_ne_nil heof hne
            have hpos : 0 < st.2.length := List.length_pos.mpr hne2
            have hlt := pAdv_len_lt hne2
            have hrec := (ih (n - 1) (by omega)).2.2 (pAdvance st) (by omega)
              (pAdv_eof heof) m (by omega)
            obtain ⟨p, hp⟩ := Option.isSome_iff_exists.mp hrec
            obtain ⟨sub, st1⟩ := p
            rw [hp]
            by_cases he : (registerPR ⟨none, none⟩ sub).1.error.isSome
            · simp [he]
            · simp only [he, if_false]
              by_cases hrp : st1.1.type = TT_RPAREN <;> simp [hrp]
          · rw [if_neg hlp]; simp
    have Hterm : ∀ st : PSt, st.2.length ≤ n → lastIsEOF st →
        ∀ fuel, 3 * n + 2 ≤ fuel → (parseFn fuel .pterm st).isSome := by
      intro st hn heof fuel hfuel
      obtain ⟨m, rfl⟩ : ∃ m, fuel = m + 1 := ⟨fuel - 1, by omega⟩
      rw [parseFn]
      exact bin_op_suff _ _ n (by decide)
        (fun s' h1 h2 => Hfac s' h1 h2 m (by omega))
        (fun st' r' st'' hh => parseFn_main m .pfactor st' r' st'' hh)
        m st hn heof (by omega)
    have Hexpr : ∀ st : PSt, st.2.length ≤ n → lastIsEOF st →
        ∀ fuel, 3 * n + 3 ≤ fuel → (parseFn fuel .pexpr st).isSome := by
      intro st hn heof fuel hfuel
      obtain ⟨m, rfl⟩ : ∃ m, fuel = m + 1 := ⟨fuel - 1, by omega⟩
      rw [parseFn]
      exact bin_op_suff _ _ n (by decide)
        (fun s' h1 h2 => Hterm s' h1 h2 m (by omega))
        (fun st' r' st'' hh => parseFn_main m .pterm st' r' st'' hh)
        m st hn heof (by omega)
    exact ⟨Hfac, Hterm, Hexpr⟩

/-- C8: `run` terminates on every finite input.  In the fuel embedding
(`none` = the fuel ran out, which models non-termination), `run` with
its canonical fuels always returns a result: lexing consumes at least
one character per loop iteration, and the recursive descent strictly
consumes tokens from the EOF-terminated sequence. -/
theorem C8_run_terminates : ∀ text : List Char, (run text).isSome := by
  intro text
  obtain ⟨toks, oe, s1, heq, _, heof, _, _⟩ :=
    @mtl_main (lexFuel (mkLexer text)) (mkLexer text) [] (by simp [mkLexer]) (le_refl _)
  have hmt : make_tokens (mkLexer text) = some (toks, oe, s1) := heq
  cases oe with
  | some e =>
    rw [show run text = some (none, some e) from by simp [run, hmt]]
    rfl
  | none =>
    obtain ⟨pre, p, hpre⟩ := heof rfl
    rw [List.nil_append] at hpre
    cases hc : pre ++ [simpleTok TT_EOF p] with
    | nil => exact absurd hc (by simp)
    | cons t ts =>
      have htoks : toks = t :: ts := by rw [hpre, hc]
      have heof2 : lastIsEOF (t, ts) := by
        have h2 : (pre ++ [simpleTok TT_EOF p]).getLast? =
            some (simpleTok TT_EOF p) := List.getLast?_concat _
        rw [hc, List.getLast?_cons] at h2
        unfold lastIsEOF
        show (ts.getLastD t).type = TT_EOF
        rw [List.getLastD_eq_getLast?, Option.some.inj h2]
        rfl
      have hsuff := (parseFn_suff ts.length).2.2 (t, ts) (le_refl _) heof2
        (parseFuel (t :: ts)) (by simp [parseFuel])
      obtain ⟨q, hq⟩ := Option.isSome_iff_exists.mp hsuff
      obtain ⟨res, st0⟩ := q
      have hparse : (parse (t :: ts)).isSome := by
        simp only [parse, hq]
        by_cases hcond : res.error.isNone = true ∧ st0.1.type ≠ TT_EOF
        · rw [if_pos hcond]; rfl
        · rw [if_neg hcond]; rfl
      obtain ⟨q2, hq2⟩ := Option.isSome_iff_exists.mp hparse
      obtain ⟨res2, st2⟩ := q2
      rw [show run text = some (res2.node, res2.error) from by
        simp [run, hmt, htoks, hq2]]
      rfl

/-! ## Parser completeness over the token-type grammar -/

theorem pAdv_toks {c : Tok} {l2 : List Tok} (h : l2 ≠ []) :
    (pAdvance (c, l2)).1 :: (pAdvance (c, l2)).2 = l2 := by
  cases l2 with
  | nil => exact absurd rfl h
  | cons x xs => rfl

theorem gram4_head {l : List String} (h : Gram 4 l) :
    ∀ x, l.head? = some x → x = TT_PLUS ∨ x = TT_MINUS := by
  cases h with
  | enil => intro x hx; simp at hx
  | econs t a r ht _ _ =>
    intro x hx
    rw [List.cons_append, List.head?_cons] at hx
    obtain rfl := Option.some.inj hx
    exact ht

/-- Completeness of the recursive descent: a token sequence whose types
derive from the grammar is consumed in full, with no error and a node
built, leaving the parser exactly on the following token.  Levels 3/4
speak about the `bin_op` while-loop. -/
theorem pc_main : ∀ (k : Nat) (l : List String), Gram k l →
    match k with
    | 0 => ∀ (ts : List Tok) (r : Tok) (rs : List Tok) (st : PSt),
        ts.map Tok.type = l → st.1 :: st.2 = ts ++ r :: rs →
        ∃ N, ∀ F, N ≤ F → ∃ n : Node,
          parseFn F .pfactor st = some (⟨none, some n⟩, (r, rs))
    | 1 => ∀ (ts : List Tok) (r : Tok) (rs : List Tok) (st : PSt),
        ts.map Tok.type = l → st.1 :: st.2 = ts ++ r :: rs →
        r.type ∉ [TT_MUL, TT_DIV] →
        ∃ N, ∀ F, N ≤ F → ∃ n : Node,
          parseFn F .pterm st = some (⟨none, some n⟩, (r, rs))
    | 2 => ∀ (ts : List Tok) (r : Tok) (rs : List Tok) (st : PSt),
        ts.map Tok.type = l → st.1 :: st.2 = ts ++ r :: rs →
        r.type ∉ [TT_MUL, TT_DIV] → r.type ∉ [TT_PLUS, TT_MINUS] →
        ∃ N, ∀ F, N ≤ F → ∃ n : Node,
          parseFn F .pexpr st = some (⟨none, some n⟩, (r, rs))
    | 3 => ∀ (ts : List Tok) (r : Tok) (rs : List Tok) (st : PSt),
        ts.map Tok.type = l → st.1 :: st.2 = ts ++ r :: rs →
        r.type ∉ [TT_MUL, TT_DIV] →
        ∃ N, ∀ F g, N ≤ F → N ≤ g → ∀ l0 : Node, ∃ n : Node,
          bin_op_loop (fun s => parseFn F .pfactor s) [TT_MUL, TT_DIV] g
            ⟨none, none⟩ (some l0) st = some (⟨none, some n⟩, (r, rs))
    | 4 => ∀ (ts : List Tok) (r : Tok) (rs : List Tok) (st : PSt),
        ts.map Tok.type = l → st.1 :: st.2 = ts ++ r :: rs →
        r.type ∉ [TT_MUL, TT_DIV] → r.type ∉ [TT_PLUS, TT_MINUS] →
        ∃ N, ∀ F g, N ≤ F → N ≤ g → ∀ l0 : Node, ∃ n : Node,
          bin_op_loop (fun s => parseFn F .pterm s) [TT_PLUS, TT_MINUS] g
            ⟨none, none⟩ (some l0) st = some (⟨none, some n⟩, (r, rs))
    | _ + 5 => True := by
  intro k l h
  induction h with
  | int =>
    intro ts r rs st hmap hst
    obtain ⟨t0, ts', rfl, hty, hmap'⟩ := List.map_eq_cons_iff.mp hmap
    obtain rfl : ts' = [] := by simpa using hmap'
    obtain ⟨stc, stl⟩ := st
    simp only [List.cons_append, List.nil_append, List.cons.injEq] at hst
    obtain ⟨h1, h2⟩ := hst
    subst h1; subst h2
    refine ⟨1, ?_⟩
    intro F hF
    obtain ⟨m, rfl⟩ : ∃ m, F = m + 1 := ⟨F - 1, by omega⟩
    refine ⟨.NumberNode stc, ?_⟩
    rw [parseFn]
    rw [if_neg (by rw [hty]; decide), if_pos (by rw [hty]; exact Or.inl rfl)]
    rfl
  | float =>
    intro ts r rs st hmap hst
    obtain ⟨t0, ts', rfl, hty, hmap'⟩ := List.map_eq_cons_iff.mp hmap
    obtain rfl : ts' = [] := by simpa using hmap'
    obtain ⟨stc, stl⟩ := st
    simp only [List.cons_append, List.nil_append, List.cons.injEq] at hst
    obtain ⟨h1, h2⟩ := hst
    subst h1; subst h2
    refine ⟨1, ?_⟩
    intro F hF
    obtain ⟨m, rfl⟩ : ∃ m, F = m + 1 := ⟨F - 1, by omega⟩
    refine ⟨.NumberNode stc, ?_⟩
    rw [parseFn]
    rw [if_neg (by rw [hty]; decide), if_pos (by rw [hty]; exact Or.inr rfl)]
    rfl
  | un t f ht hf ihf =>
    intro ts r rs st hmap hst
    obtain ⟨t0, ts', rfl, hty, hmap'⟩ := List.map_eq_cons_iff.mp hmap
    obtain ⟨stc, stl⟩ := st
    simp only [List.cons_append, List.cons.injEq] at hst
    obtain ⟨h1, h2⟩ := hst
    subst h1
    have hstl : stl ≠ [] := by
      rw [h2]; exact List.append_ne_nil_of_right_ne_nil _ (by simp)
    have hrec := ihf ts' r rs (pAdvance (stc, stl))
      hmap' (by rw [pAdv_toks hstl]; exact h2)
    obtain ⟨N, hN⟩ := hrec
    refine ⟨N + 1, ?_⟩
    intro F hF
    obtain ⟨m, rfl⟩ : ∃ m, F = m + 1 := ⟨F - 1, by omega⟩
    obtain ⟨n, hn⟩ := hN m (by omega)
    refine ⟨.UnaryOpNode stc (some n), ?_⟩
    rw [parseFn]
    rw [if_pos (by rw [hty]; exact ht)]
    rw [hn]
    rfl
  | paren e he ihe =>
    intro ts r rs st hmap hst
    obtain ⟨t0, ts', rfl, hty, hmap'⟩ := List.map_eq_cons_iff.mp hmap
    obtain ⟨tse, tsr, rfl, hmape, hmapr⟩ :=
      List.append_eq_map_iff.mp hmap'.symm
    obtain ⟨rp, tsr', rfl, htyrp, hmaprp⟩ := List.map_eq_cons_iff.mp hmapr
    obtain rfl : tsr' = [] := by simpa using hmaprp
    obtain ⟨stc, stl⟩ := st
    simp only [List.cons_append, List.cons.injEq] at hst
    obtain ⟨h1, h2⟩ := hst
    subst h1
    have hstl : stl ≠ [] := by
      rw [h2]
      intro hx
      rcases List.append_eq_nil.mp hx with ⟨_, hx2⟩
      simp at hx2
    have hassoc : stl = tse ++ rp :: r :: rs := by
      rw [h2]; simp
    have hrec := ihe tse rp (r :: rs) (pAdvance (stc, stl))
      hmape (by rw [pAdv_toks hstl]; exact hassoc)
      (by rw [htyrp]; decide) (by rw [htyrp]; decide)
    obtain ⟨N, hN⟩ := hrec
    refine ⟨N + 1, ?_⟩
    intro F hF
    obtain ⟨m, rfl⟩ : ∃ m, F = m + 1 := ⟨F - 1, by omega⟩
    obtain ⟨n, hn⟩ := hN m (by omega)
    refine ⟨n, ?_⟩
    rw [parseFn]
    rw [if_neg (by rw [hty]; decide), if_neg (by rw [hty]; decide),
      if_pos (by rw [hty])]
    rw [hn]
    simp [registerPR, ParseResult.success, htyrp, pAdvance]
  | tnil =>
    intro ts r rs st hmap hst
    obtain rfl : ts = [] := by simpa using hmap
    obtain ⟨stc, stl⟩ := st
    simp only [List.nil_append, List.cons.injEq] at hst
    obtain ⟨h1, h2⟩ := hst
    subst h1; subst h2
    intro hr
    refine ⟨1, ?_⟩
    intro F g hF hg l0
    obtain ⟨m, rfl⟩ : ∃ m, g = m + 1 := ⟨g - 1, by omega⟩
    refine ⟨l0, ?_⟩
    rw [bin_op_loop]
    rw [if_neg (by simpa using hr)]
    rfl
  | tcons t f rest ht hfg hrg ihf ihr =>
    intro ts r rs st hmap hst hr
    obtain ⟨top, ts', rfl, hty, hmap'⟩ := List.map_eq_cons_iff.mp hmap
    obtain ⟨tsf, tsr, rfl, hmapf, hmapr⟩ :=
      List.append_eq_map_iff.mp hmap'.symm
    obtain ⟨stc, stl⟩ := st
    simp only [List.cons_append, List.cons.injEq] at hst
    obtain ⟨h1, h2⟩ := hst
    subst h1
    have hstl : stl ≠ [] := by
      rw [h2]; exact List.append_ne_nil_of_right_ne_nil _ (by simp)
    cases hrem : tsr ++ r :: rs with
    | nil => simp at hrem
    | cons r' rs' =>
      have hassoc : stl = tsf ++ r' :: rs' := by
        rw [h2, List.append_assoc, hrem]
      obtain ⟨N0, hN0⟩ := ihf tsf r' rs' (pAdvance (stc, stl))
        hmapf (by rw [pAdv_toks hstl]; exact hassoc)
      obtain ⟨N3, hN3⟩ := ihr tsr r rs (r', rs') hmapr (by rw [hrem]) hr
      refine ⟨N0 + N3 + 1, ?_⟩
      intro F g hF hg l0
      obtain ⟨m, rfl⟩ : ∃ m, g = m + 1 := ⟨g - 1, by omega⟩
      obtain ⟨nf, hnf⟩ := hN0 F (by omega)
      obtain ⟨nr, hnr⟩ := hN3 F m (by omega) (by omega)
        (.BinOpNode (some l0) stc (some nf))
      refine ⟨nr, ?_⟩
      rw [bin_op_loop]
      rw [if_pos (by rw [hty]; simpa using ht)]
      rw [hnf]
      show bin_op_loop _ _ m _ _ _ = _
      exact hnr
  | term f rest hfg hrg ihf ihr =>
    intro ts r rs st hmap hst hr
    obtain ⟨tsf, tsr, rfl, hmapf, hmapr⟩ :=
      List.append_eq_map_iff.mp hmap.symm
    cases hrem : tsr ++ r :: rs with
    | nil => simp at hrem
    | cons r' rs' =>
      have hassoc : st.1 :: st.2 = tsf ++ r' :: rs' := by
        rw [hst, List.append_assoc, hrem]
      obtain ⟨N0, hN0⟩ := ihf tsf r' rs' st hmapf hassoc
      obtain ⟨N3, hN3⟩ := ihr tsr r rs (r', rs') hmapr (by rw [hrem]) hr
      refine ⟨N0 + N3 + 2, ?_⟩
      intro F hF
      obtain ⟨m, rfl⟩ : ∃ m, F = m + 1 := ⟨F - 1, by omega⟩
      obtain ⟨m2, rfl⟩ : ∃ m2, m = m2 + 1 := ⟨m - 1, by omega⟩
      obtain ⟨nf, hnf⟩ := hN0 (m2 + 1) (by omega)
      obtain ⟨nr, hnr⟩ := hN3 (m2 + 1) m2 (by omega) (by omega) nf
      refine ⟨nr, ?_⟩
      rw [parseFn, bin_op]
      rw [hnf]
      show bin_op_loop _ _ m2 _ _ _ = _
      exact hnr
  | enil =>
    intro ts r rs st hmap hst
    obtain rfl : ts = [] := by simpa using hmap
    obtain ⟨stc, stl⟩ := st
    simp only [List.nil_append, List.cons.injEq] at hst
    obtain ⟨h1, h2⟩ := hst
    subst h1; subst h2
    intro hrmd hrpm
    refine ⟨1, ?_⟩
    intro F g hF hg l0
    obtain ⟨m, rfl⟩ : ∃ m, g = m + 1 := ⟨g - 1, by omega⟩
    refine ⟨l0, ?_⟩
    rw [bin_op_loop]
    rw [if_neg (by simpa using hrpm)]
    rfl
  | econs t a rest ht hag hrg iha ihr =>
    intro ts r rs st hmap hst hrmd hrpm
    obtain ⟨top, ts', rfl, hty, hmap'⟩ := List.map_eq_cons_iff.mp hmap
    obtain ⟨tsa, tsr, rfl, hmapa, hmapr⟩ :=
      List.append_eq_map_iff.mp hmap'.symm
    obtain ⟨stc, stl⟩ := st
    simp only [List.cons_append, List.cons.injEq] at hst
    obtain ⟨h1, h2⟩ := hst
    subst h1
    have hstl : stl ≠ [] := by
      rw [h2]; exact List.append_ne_nil_of_right_ne_nil _ (by simp)
    cases hrem : tsr ++ r :: rs with
    | nil => simp at hrem
    | cons r' rs' =>
      have hassoc : stl = tsa ++ r' :: rs' := by
        rw [h2, List.append_assoc, hrem]
      have hr'md : r'.type ∉ [TT_MUL, TT_DIV] := by
        cases tsr with
        | nil =>
          rw [List.nil_append] at hrem
          injection hrem with hx _
          rw [← hx]
          exact hrmd
        | cons u us =>
          rw [List.cons_append] at hrem
          injection hrem with hx _
          have hu := gram4_head hrg u.type
            (by rw [← hmapr]; simp)
          rcases hu with h | h <;> rw [← hx, h] <;> decide
      obtain ⟨N1, hN1⟩ := iha tsa r' rs' (pAdvance (stc, stl))
        hmapa (by rw [pAdv_toks hstl]; exact hassoc) hr'md
      obtain ⟨N4, hN4⟩ := ihr tsr r rs (r', rs') hmapr (by rw [hrem]) hrmd hrpm
      refine ⟨N1 + N4 + 1, ?_⟩
      intro F g hF hg l0
      obtain ⟨m, rfl⟩ : ∃ m, g = m + 1 := ⟨g - 1, by omega⟩
      obtain ⟨na, hna⟩ := hN1 F (by omega)
      obtain ⟨nr, hnr⟩ := hN4 F m (by omega) (by omega)
        (.BinOpNode (some l0) stc (some na))
      refine ⟨nr, ?_⟩
      rw [bin_op_loop]
      rw [if_pos (by rw [hty]; simpa using ht)]
      rw [hna]
      show bin_op_loop _ _ m _ _ _ = _
      exact hnr
  | expr a rest hag hrg iha ihr =>
    intro ts r rs st hmap hst hrmd hrpm
    obtain ⟨tsa, tsr, rfl, hmapa, hmapr⟩ :=
      List.append_eq_map_iff.mp hmap.symm
    cases hrem : tsr ++ r :: rs with
    | nil => simp at hrem
    | cons r' rs' =>
      have hassoc : st.1 :: st.2 = tsa ++ r' :: rs' := by
        rw [hst, List.append_assoc, hrem]
      have hr'md : r'.type ∉ [TT_MUL, TT_DIV] := by
        cases tsr with
        | nil =>
          rw [List.nil_append] at hrem
          injection hrem with hx _
          rw [← hx]
          exact hrmd
        | cons u us =>
          rw [List.cons_append] at hrem
          injection hrem with hx _
          have hu := gram4_head hrg u.type
            (by rw [← hmapr]; simp)
          rcases hu with h | h <;> rw [← hx, h] <;> decide
      obtain ⟨N1, hN1⟩ := iha tsa r' rs' st hmapa hassoc hr'md
      obtain ⟨N4, hN4⟩ := ihr tsr r rs (r', rs') hmapr (by rw [hrem]) hrmd hrpm
      refine ⟨N1 + N4 + 2, ?_⟩
      intro F hF
      obtain ⟨m, rfl⟩ : ∃ m, F = m + 1 := ⟨F - 1, by omega⟩
      obtain ⟨m2, rfl⟩ : ∃ m2, m = m2 + 1 := ⟨m - 1, by omega⟩
      obtain ⟨na, hna⟩ := hN1 (m2 + 1) (by omega)
      obtain ⟨nr, hnr⟩ := hN4 (m2 + 1) m2 (by omega) (by omega) na
      refine ⟨nr, ?_⟩
      rw [parseFn, bin_op]
      rw [hna]
      show bin_op_loop _ _ m2 _ _ _ = _
      exact hnr

/-! ## Lexer completeness: canonical-run step lemmas -/

theorem drop_cons_cur {s : LexState} {c : Char} {l : List Char}
    (h : s.text.drop s.pos.idx = c :: l) : cur s = some c := by
  rw [cur_eq_head_drop, h]
  rfl

theorem drop_advance {s : LexState} {c : Char} {l : List Char}
    (h : s.text.drop s.pos.idx = c :: l) :
    (lexAdvance s).text.drop (lexAdvance s).pos.idx = l := by
  rw [lexAdvance_text, lexAdvance_idx]
  have h2 := congrArg (List.drop 1) h
  rw [List.drop_drop] at h2
  rw [h2]
  rfl

theorem drop_idx_le {s : LexState} {c : Char} {l : List Char}
    (h : s.text.drop s.pos.idx = c :: l) : s.pos.idx < s.text.length :=
  cur_lt_length (drop_cons_cur h)

theorem mtl_mono : ∀ (fuel : Nat) {fuel' : Nat} {s : LexState} {acc : List Tok}
    {r : List Tok × Option Err × LexState},
    make_tokens_loop fuel s acc = some r → fuel ≤ fuel' →
    make_tokens_loop fuel' s acc = some r := by
  intro fuel
  induction fuel with
  | zero => intro fuel' s acc r h; simp [make_tokens_loop] at h
  | succ n ih =>
    intro fuel' s acc r h hle
    obtain ⟨m, rfl⟩ : ∃ m, fuel' = m + 1 := ⟨fuel' - 1, by omega⟩
    rw [make_tokens_loop] at h ⊢
    cases hc : cur s with
    | none =>
      try rw [hc] at h
      try rw [hc]
      exact h
    | some c =>
      try rw [hc] at h
      try rw [hc]
      by_cases h1 : c = ' ' ∨ c = '\t'
      · simp only [if_pos h1] at h ⊢; exact ih h (by omega)
      · simp only [if_neg h1] at h ⊢
        by_cases h2 : c ∈ DIGITS
        · simp only [if_pos h2] at h ⊢
          cases hmn : make_number s with
          | none => rw [hmn] at h; simp at h
          | some p =>
            obtain ⟨t, s1⟩ := p
            rw [hmn] at h
            exact ih h (by omega)
        · simp only [if_neg h2] at h ⊢
          by_cases h3 : c = '+'
          · simp only [if_pos h3] at h ⊢; exact ih h (by omega)
          · simp only [if_neg h3] at h ⊢
            by_cases h4 : c = '-'
            · simp only [if_pos h4] at h ⊢; exact ih h (by omega)
            · simp only [if_neg h4] at h ⊢
              by_cases h5 : c = '*'
              · simp only [if_pos h5] at h ⊢; exact ih h (by omega)
              · simp only [if_neg h5] at h ⊢
                by_cases h6 : c = '/'
                · simp only [if_pos h6] at h ⊢; exact ih h (by omega)
                · simp only [if_neg h6] at h ⊢
                  by_cases h7 : c = '('
                  · simp only [if_pos h7] at h ⊢; exact ih h (by omega)
                  · simp only [if_neg h7] at h ⊢
                    by_cases h8 : c = ')'
                    · simp only [if_pos h8] at h ⊢; exact ih h (by omega)
                    · simp only [if_neg h8] at h ⊢; exact h

theorem mtRun_ws {s : LexState} {acc : List Tok} {c : Char}
    (hc : cur s = some c) (h1 : c = ' ' ∨ c = '\t') :
    mtRun s acc = mtRun (lexAdvance s) acc := by
  rw [mtRun, lexFuel_succ hc, make_tokens_loop, hc]
  simp only [if_pos h1]
  rfl

theorem mtRun_op {s : LexState} {acc : List Tok} {c : Char} {tt : String}
    (hc : cur s = some c)
    (hop : (c, tt) ∈ [('+', TT_PLUS), ('-', TT_MINUS), ('*', TT_MUL),
      ('/', TT_DIV), ('(', TT_LPAREN), (')', TT_RPAREN)]) :
    mtRun s acc = mtRun (lexAdvance s) (acc ++ [simpleTok tt s.pos]) := by
  rw [mtRun, lexFuel_succ hc, make_tokens_loop, hc]
  simp only [List.mem_cons, List.mem_singleton, Prod.mk.injEq] at hop
  rcases hop with ⟨rfl, rfl⟩ | ⟨rfl, rfl⟩ | ⟨rfl, rfl⟩ | ⟨rfl, rfl⟩ |
    ⟨rfl, rfl⟩ | ⟨rfl, rfl⟩ | h0
  · simp [mtRun, DIGITS]
  · simp [mtRun, DIGITS]
  · simp [mtRun, DIGITS]
  · simp [mtRun, DIGITS]
  · simp [mtRun, DIGITS]
  · simp [mtRun, DIGITS]
  · simp at h0

theorem mtRun_num {s : LexState} {acc : List Tok} {c : Char} {t : Tok}
    {s1 : LexState} (hc : cur s = some c) (h2 : c ∈ DIGITS)
    (hmn : make_number s = some (t, s1)) :
    mtRun s acc = mtRun s1 (acc ++ [t]) := by
  have hw : ¬(c = ' ' ∨ c = '\t') := by
    rcases Classical.em (c = ' ' ∨ c = '\t') with h | h
    · rcases h with rfl | rfl <;> exact absurd h2 (by decide)
    · exact h
  rw [mtRun, lexFuel_succ hc, make_tokens_loop, hc]
  simp only [if_neg hw, if_pos h2, hmn]
  have hlt := cur_lt_length hc
  have hstrict := make_number_strict hc h2 hmn
  obtain ⟨t', s1', hmn', htext', _, hlen', _⟩ := make_number_eq s (by omega)
  rw [hmn] at hmn'
  obtain ⟨h1, h2'⟩ := Prod.mk.injEq .. ▸ Option.some.inj hmn'
  subst h1; subst h2'
  have hle1 : s1.pos.idx ≤ s1.text.length := by rw [htext']; exact hlen'
  obtain ⟨toks, oe, s2, hr, _, _, _, _⟩ :=
    @mtl_main (lexFuel s1) s1 (acc ++ [t]) hle1 (le_refl _)
  have hfle : lexFuel s1 ≤ lexFuel (lexAdvance s) := by
    unfold lexFuel
    rw [htext', lexAdvance_text, lexAdvance_idx]
    omega
  rw [mtRun, hr]
  exact mtl_mono _ hr hfle

theorem mtRun_eof {s : LexState} {acc : List Tok} (hc : cur s = none)
    (hle : s.pos.idx ≤ s.text.length) :
    mtRun s acc = some (acc ++ [simpleTok TT_EOF s.pos], none, s) := by
  obtain ⟨m, hm⟩ : ∃ m, lexFuel s = m + 1 :=
    ⟨lexFuel s - 1, by unfold lexFuel; omega⟩
  rw [mtRun, hm, make_tokens_loop, hc]

theorem mtRun_ws_chunk : ∀ (w : List Char) (s : LexState) (rest : List Char),
    wsOnly w → s.text.drop s.pos.idx = w ++ rest →
    ∃ s1, (∀ acc, mtRun s acc = mtRun s1 acc) ∧ s1.text = s.text ∧
      s1.pos.idx = s.pos.idx + w.length := by
  intro w
  induction w with
  | nil =>
    intro s rest _ _
    exact ⟨s, fun acc => rfl, rfl, by simp⟩
  | cons c w' ih =>
    intro s rest hws hdrop
    rw [List.cons_append] at hdrop
    have hc := drop_cons_cur hdrop
    obtain ⟨s1, hrec, htext, hidx⟩ := ih (lexAdvance s) rest
      (fun c' hc' => hws c' (List.mem_cons_of_mem _ hc')) (drop_advance hdrop)
    refine ⟨s1, ?_, by rw [htext]; rfl, ?_⟩
    · intro acc
      exact (mtRun_ws hc (hws c (by simp))).trans (hrec acc)
    · rw [hidx, lexAdvance_idx, List.length_cons]
      omega

theorem mnRun_digits : ∀ (ds : List Char) (s : LexState) (ns : List Char)
    (dc : Nat) (rest : List Char), (∀ c ∈ ds, c ∈ DIGITS) →
    s.text.drop s.pos.idx = ds ++ rest →
    ∃ s1, mnRun s ns dc = mnRun s1 (ns ++ ds) dc ∧ s1.text = s.text ∧
      s1.pos.idx = s.pos.idx + ds.length := by
  intro ds
  induction ds with
  | nil =>
    intro s ns dc rest _ _
    exact ⟨s, by simp, rfl, by simp⟩
  | cons d ds' ih =>
    intro s ns dc rest hds hdrop
    rw [List.cons_append] at hdrop
    have hc := drop_cons_cur hdrop
    have hd : d ∈ DIGITS := hds d (by simp)
    have hdn : d ∈ numChars := List.mem_append_left _ hd
    have hdd : d ≠ '.' := by
      intro he; rw [he] at hd; exact absurd hd (by decide)
    obtain ⟨s1, hrec, htext, hidx⟩ := ih (lexAdvance s) (ns ++ [d]) dc rest
      (fun c' hc' => hds c' (List.mem_cons_of_mem _ hc')) (drop_advance hdrop)
    refine ⟨s1, ?_, by rw [htext]; rfl, ?_⟩
    · rw [mnRun_digit hc hdn hdd, hrec, List.append_assoc]
      rfl
    · rw [hidx, lexAdvance_idx, List.length_cons]
      omega

theorem drop_after_chunk {s : LexState} {chunk rest : List Char}
    (hdrop : s.text.drop s.pos.idx = chunk ++ rest) :
    s.text.drop (s.pos.idx + chunk.length) = rest := by
  have h2 := congrArg (List.drop chunk.length) hdrop
  rw [List.drop_drop, List.drop_left] at h2
  exact h2

theorem len_after_chunk {s : LexState} {chunk rest : List Char}
    (hdrop : s.text.drop s.pos.idx = chunk ++ rest)
    (hle : s.pos.idx ≤ s.text.length) :
    s.pos.idx + chunk.length + rest.length = s.text.length := by
  have h2 := congrArg List.length hdrop
  rw [List.length_drop, List.length_append] at h2
  omega

theorem make_number_int_complete {s : LexState} {ds rest : List Char}
    (hne : ds ≠ []) (hds : ∀ c ∈ ds, c ∈ DIGITS)
    (hdrop : s.text.drop s.pos.idx = ds ++ rest)
    (hstop : ∀ c, rest.head? = some c → c ∉ numChars) :
    ∃ t s1, make_number s = some (t, s1) ∧ t.type = TT_INT ∧
      s1.text = s.text ∧ s1.pos.idx = s.pos.idx + ds.length := by
  obtain ⟨s1, heq, htext, hidx⟩ := mnRun_digits ds s [] 0 rest hds hdrop
  have hlt : s.pos.idx < s.text.length := by
    cases ds with
    | nil => exact absurd rfl hne
    | cons d ds' =>
      rw [List.cons_append] at hdrop
      exact drop_idx_le hdrop
  have hlen := len_after_chunk hdrop (by omega)
  have hdrop1 : s1.text.drop s1.pos.idx = rest := by
    rw [htext, hidx]
    exact drop_after_chunk hdrop
  have hle1 : s1.pos.idx ≤ s1.text.length := by
    rw [htext, hidx]; omega
  have hstop1 : mnRun s1 ds 0 = some (ds, 0, s1) := by
    cases hrest : rest with
    | nil =>
      rw [hrest] at hdrop1
      have hc1 : cur s1 = none := by rw [cur_eq_head_drop, hdrop1]; rfl
      exact mnRun_none hc1 hle1
    | cons c' rest' =>
      rw [hrest] at hdrop1
      have hc1 : cur s1 = some c' := drop_cons_cur hdrop1
      exact mnRun_stop hc1 (hstop c' (by rw [hrest]; rfl))
  refine ⟨⟨TT_INT, some (.VInt (intOfNumStr ds)), .snap s.pos, .cursor⟩, s1,
    ?_, rfl, htext, hidx⟩
  unfold make_number
  rw [show make_number_loop (lexFuel s) s [] 0 = mnRun s [] 0 from rfl, heq]
  simp only [List.nil_append]
  rw [hstop1]
  rfl

theorem make_number_dec_complete {s : LexState} {ip fp rest : List Char}
    (hne : ip ≠ []) (hip : ∀ c ∈ ip, c ∈ DIGITS) (hfp : ∀ c ∈ fp, c ∈ DIGITS)
    (hdrop : s.text.drop s.pos.idx = (ip ++ '.' :: fp) ++ rest)
    (hstop : ∀ c, rest.head? = some c → c ∉ numChars) :
    ∃ t s1, make_number s = some (t, s1) ∧ t.type = TT_FLOAT ∧
      s1.text = s.text ∧ s1.pos.idx = s.pos.idx + (ip ++ '.' :: fp).length := by
  rw [List.append_assoc] at hdrop
  obtain ⟨sA, heqA, htextA, hidxA⟩ := mnRun_digits ip s [] 0 ('.' :: fp ++ rest)
    hip hdrop
  have hltA : s.pos.idx < s.text.length := by
    cases ip with
    | nil => exact absurd rfl hne
    | cons d ds' =>
      rw [List.cons_append] at hdrop
      exact drop_idx_le hdrop
  have hdropA : sA.text.drop sA.pos.idx = '.' :: (fp ++ rest) := by
    rw [htextA, hidxA]
    exact drop_after_chunk hdrop
  have hcA : cur sA = some '.' := drop_cons_cur hdropA
  have hdot := @mnRun_dot sA ip 0 hcA (by omega)
  obtain ⟨sB, heqB, htextB, hidxB⟩ := mnRun_digits fp (lexAdvance sA)
    (ip ++ ['.']) 1 rest hfp (drop_advance hdropA)
  have hlenA := len_after_chunk hdrop (by omega)
  have hdropB : sB.text.drop sB.pos.idx = rest := by
    rw [htextB, hidxB, lexAdvance_text, lexAdvance_idx, htextA, hidxA]
    have := @drop_after_chunk s (ip ++ '.' :: fp) rest
      (by rw [List.append_assoc]; exact hdrop)
    rw [show s.pos.idx + ip.length + 1 + fp.length =
      s.pos.idx + (ip ++ '.' :: fp).length from by simp; omega]
    exact this
  have hleB : sB.pos.idx ≤ sB.text.length := by
    rw [htextB, hidxB, lexAdvance_text, lexAdvance_idx, htextA, hidxA]
    simp at hlenA ⊢
    omega
  have hstopB : mnRun sB ((ip ++ ['.']) ++ fp) 1 = some ((ip ++ ['.']) ++ fp, 1, sB) := by
    cases hrest : rest with
    | nil =>
      rw [hrest] at hdropB
      have hcB : cur sB = none := by rw [cur_eq_head_drop, hdropB]; rfl
      exact mnRun_none hcB hleB
    | cons c' rest' =>
      rw [hrest] at hdropB
      have hcB : cur sB = some c' := drop_cons_cur hdropB
      exact mnRun_stop hcB (hstop c' (by rw [hrest]; rfl))
  refine ⟨⟨TT_FLOAT, some (.VFloat (floatOfNumStr ((ip ++ ['.']) ++ fp))),
    .snap s.pos, .cursor⟩, sB, ?_, rfl, ?_, ?_⟩
  · unfold make_number
    rw [show make_number_loop (lexFuel s) s [] 0 = mnRun s [] 0 from rfl, heqA]
    simp only [List.nil_append]
    rw [hdot, heqB, hstopB]
    rfl
  · rw [htextB, lexAdvance_text, htextA]
  · rw [hidxB, lexAdvance_idx, hidxA]
    simp
    omega

theorem drop_at_state {s1 s0 : LexState} {chunk rest : List Char}
    (htext : s1.text = s0.text) (hidx : s1.pos.idx = s0.pos.idx + chunk.length)
    (hdrop0 : s0.text.drop s0.pos.idx = chunk ++ rest) :
    s1.text.drop s1.pos.idx = rest := by
  rw [htext, hidx]
  exact drop_after_chunk hdrop0

theorem head_append_notnum {l1 l2 : List Char}
    (h1 : ∀ c, l1.head? = some c → c ∉ numChars)
    (h2 : ∀ c, l2.head? = some c → c ∉ numChars) :
    ∀ c, (l1 ++ l2).head? = some c → c ∉ numChars := by
  cases l1 with
  | nil => intro c hc; exact h2 c hc
  | cons x xs => intro c hc; exact h1 c hc

theorem cons_head_notnum {c : Char} {l : List Char} (h : c ∉ numChars) :
    ∀ c', (c :: l).head? = some c' → c' ∉ numChars := by
  intro c' hc'
  rw [List.head?_cons] at hc'
  obtain rfl := Option.some.inj hc'
  exact h

theorem ws_head_notnum {w : List Char} (hw : wsOnly w) :
    ∀ c, w.head? = some c → c ∉ numChars := by
  cases w with
  | nil => intro c hc; simp at hc
  | cons x xs =>
    intro c hc
    rw [List.head?_cons] at hc
    obtain rfl := Option.some.inj hc
    rcases hw x (by simp) with rfl | rfl <;> decide

theorem ws_cons_head_notnum {w : List Char} {c : Char} {l : List Char}
    (hw : wsOnly w) (hc : c ∉ numChars) :
    ∀ c', (w ++ c :: l).head? = some c' → c' ∉ numChars :=
  head_append_notnum (ws_head_notnum hw) (cons_head_notnum hc)

theorem vg3_head_notnum {t : List Char} (h : VG 3 t) :
    ∀ c, t.head? = some c → c ∉ numChars := by
  cases h with
  | tnil => intro c hc; simp at hc
  | tcons w1 w2 c' f r hw1 hc' hw2 hf hr =>
    intro c hc
    rw [List.append_assoc, List.append_assoc, List.cons_append] at hc
    exact ws_cons_head_notnum hw1
      (by rcases hc' with rfl | rfl <;> decide) c hc

theorem vg4_head_notnum {t : List Char} (h : VG 4 t) :
    ∀ c, t.head? = some c → c ∉ numChars := by
  cases h with
  | enil => intro c hc; simp at hc
  | econs w1 w2 c' a r hw1 hc' hw2 ha hr =>
    intro c hc
    rw [List.append_assoc, List.append_assoc, List.cons_append] at hc
    exact ws_cons_head_notnum hw1
      (by rcases hc' with rfl | rfl <;> decide) c hc

/-- Completeness of the lexer on grammar-shaped character chunks: the
canonical run consumes the chunk, emits tokens whose type sequence lies
in the corresponding level of the token-type grammar, and proceeds from
just after the chunk. -/
theorem lex_main : ∀ (k : Nat) (chars : List Char), VG k chars →
    ∀ (s : LexState) (rest : List Char),
      s.text.drop s.pos.idx = chars ++ rest →
      (∀ c, rest.head? = some c → c ∉ numChars) →
      ∃ s1 ts, (∀ acc, mtRun s acc = mtRun s1 (acc ++ ts)) ∧
        s1.text = s.text ∧ s1.pos.idx = s.pos.idx + chars.length ∧
        Gram k (ts.map Tok.type) := by
  intro k chars h
  induction h with
  | int ds hne hds =>
    intro s rest hdrop hrest
    obtain ⟨t, s1, hmn, hty, htext, hidx⟩ :=
      make_number_int_complete hne hds hdrop hrest
    obtain ⟨d, ds', rfl⟩ : ∃ d ds', ds = d :: ds' := by
      cases ds with
      | nil => exact absurd rfl hne
      | cons d ds' => exact ⟨d, ds', rfl⟩
    have hdrop' : s.text.drop s.pos.idx = d :: (ds' ++ rest) := by
      rw [hdrop]; simp
    have hc : cur s = some d := drop_cons_cur hdrop'
    refine ⟨s1, [t], fun acc => mtRun_num hc (hds d (by simp)) hmn,
      htext, hidx, ?_⟩
    simpa [hty] using Gram.int
  | dec ip fp hne hip hfp =>
    intro s rest hdrop hrest
    obtain ⟨t, s1, hmn, hty, htext, hidx⟩ :=
      make_number_dec_complete hne hip hfp hdrop hrest
    obtain ⟨d, ip', rfl⟩ : ∃ d ip', ip = d :: ip' := by
      cases ip with
      | nil => exact absurd rfl hne
      | cons d ip' => exact ⟨d, ip', rfl⟩
    have hdrop' : s.text.drop s.pos.idx = d :: (ip' ++ '.' :: fp ++ rest) := by
      rw [hdrop]; simp
    have hc : cur s = some d := drop_cons_cur hdrop'
    refine ⟨s1, [t], fun acc => mtRun_num hc (hip d (by simp)) hmn,
      htext, hidx, ?_⟩
    simpa [hty] using Gram.float
  | un c w f hcpm hw hf ihf =>
    intro s rest hdrop hrest
    have hdrop' : s.text.drop s.pos.idx = c :: (w ++ (f ++ rest)) := by
      rw [hdrop]; simp
    have hc : cur s = some c := drop_cons_cur hdrop'
    have hdropA := drop_advance hdrop'
    obtain ⟨s2, hws, htext2, hidx2⟩ :=
      mtRun_ws_chunk w (lexAdvance s) (f ++ rest) hw hdropA
    have hdrop2 : s2.text.drop s2.pos.idx = f ++ rest :=
      drop_at_state htext2 hidx2 hdropA
    obtain ⟨s3, ts3, hrun3, htext3, hidx3, hgram3⟩ := ihf s2 rest hdrop2 hrest
    obtain ⟨tt, hopstep, httpm⟩ :
        ∃ tt, (∀ acc, mtRun s acc =
            mtRun (lexAdvance s) (acc ++ [simpleTok tt s.pos])) ∧
          (tt = TT_PLUS ∨ tt = TT_MINUS) := by
      rcases hcpm with rfl | rfl
      · exact ⟨TT_PLUS, fun acc => mtRun_op hc (by decide), Or.inl rfl⟩
      · exact ⟨TT_MINUS, fun acc => mtRun_op hc (by decide), Or.inr rfl⟩
    refine ⟨s3, simpleTok tt s.pos :: ts3, ?_, ?_, ?_, ?_⟩
    · intro acc
      rw [hopstep acc, hws _, hrun3 _, List.append_assoc]
      rfl
    · rw [htext3, htext2]; rfl
    · rw [hidx3, hidx2, lexAdvance_idx]
      simp [List.length_append]
      omega
    · exact Gram.un tt _ httpm hgram3
  | paren w1 w2 e hw1 hw2 he ihe =>
    intro s rest hdrop hrest
    have hdrop' : s.text.drop s.pos.idx =
        '(' :: (w1 ++ (e ++ (w2 ++ (')' :: rest)))) := by
      rw [hdrop]; simp
    have hc : cur s = some '(' := drop_cons_cur hdrop'
    have hdropA := drop_advance hdrop'
    obtain ⟨s2, hwsA, htext2, hidx2⟩ := mtRun_ws_chunk w1 (lexAdvance s)
      (e ++ (w2 ++ (')' :: rest))) hw1 hdropA
    have hdrop2 : s2.text.drop s2.pos.idx = e ++ (w2 ++ (')' :: rest)) :=
      drop_at_state htext2 hidx2 hdropA
    have hrest2 : ∀ c, (w2 ++ (')' :: rest)).head? = some c → c ∉ numChars :=
      ws_cons_head_notnum hw2 (by decide)
    obtain ⟨s3, tse, hrun3, htext3, hidx3, hgram3⟩ :=
      ihe s2 (w2 ++ (')' :: rest)) hdrop2 hrest2
    have hdrop3 : s3.text.drop s3.pos.idx = w2 ++ (')' :: rest) :=
      drop_at_state htext3 hidx3 hdrop2
    obtain ⟨s4, hws4, htext4, hidx4⟩ := mtRun_ws_chunk w2 s3 (')' :: rest) hw2 hdrop3
    have hdrop4 : s4.text.drop s4.pos.idx = ')' :: rest :=
      drop_at_state htext4 hidx4 hdrop3
    have hc4 : cur s4 = some ')' := drop_cons_cur hdrop4
    refine ⟨lexAdvance s4,
      simpleTok TT_LPAREN s.pos :: (tse ++ [simpleTok TT_RPAREN s4.pos]),
      ?_, ?_, ?_, ?_⟩
    · intro acc
      rw [@mtRun_op s acc '(' TT_LPAREN hc (by decide), hwsA _, hrun3 _, hws4 _,
        @mtRun_op s4 _ ')' TT_RPAREN hc4 (by decide)]
      simp
    · rw [lexAdvance_text, htext4, htext3, htext2]; rfl
    · rw [lexAdvance_idx, hidx4, hidx3, hidx2, lexAdvance_idx]
      simp [List.length_append, List.length_cons]
      omega
    · have := Gram.paren _ hgram3
      simpa [List.map_append] using this
  | tnil =>
    intro s rest hdrop hrest
    exact ⟨s, [], fun acc => by rw [List.append_nil], rfl, by simp, Gram.tnil⟩
  | tcons w1 w2 c f r hw1 hcmd hw2 hf hr ihf ihr =>
    intro s rest hdrop hrest
    have hdrop0 : s.text.drop s.pos.idx =
        w1 ++ (c :: (w2 ++ (f ++ (r ++ rest)))) := by
      rw [hdrop]; simp
    obtain ⟨sA, hwsA, htextA, hidxA⟩ := mtRun_ws_chunk w1 s
      (c :: (w2 ++ (f ++ (r ++ rest)))) hw1 hdrop0
    have hdropA : sA.text.drop sA.pos.idx = c :: (w2 ++ (f ++ (r ++ rest))) :=
      drop_at_state htextA hidxA hdrop0
    have hcA : cur sA = some c := drop_cons_cur hdropA
    obtain ⟨tt, hopstep, httmd⟩ :
        ∃ tt, (∀ acc, mtRun sA acc =
            mtRun (lexAdvance sA) (acc ++ [simpleTok tt sA.pos])) ∧
          (tt = TT_MUL ∨ tt = TT_DIV) := by
      rcases hcmd with rfl | rfl
      · exact ⟨TT_MUL, fun acc => mtRun_op hcA (by decide), Or.inl rfl⟩
      · exact ⟨TT_DIV, fun acc => mtRun_op hcA (by decide), Or.inr rfl⟩
    have hdropB := drop_advance hdropA
    obtain ⟨sB, hwsB, htextB, hidxB⟩ := mtRun_ws_chunk w2 (lexAdvance sA)
      (f ++ (r ++ rest)) hw2 hdropB
    have hdropB2 : sB.text.drop sB.pos.idx = f ++ (r ++ rest) :=
      drop_at_state htextB hidxB hdropB
    have hrestf : ∀ c', (r ++ rest).head? = some c' → c' ∉ numChars :=
      head_append_notnum (vg3_head_notnum hr) hrest
    obtain ⟨sC, tsf, hrunC, htextC, hidxC, hgramf⟩ := ihf sB (r ++ rest) hdropB2 hrestf
    have hdropC : sC.text.drop sC.pos.idx = r ++ rest :=
      drop_at_state htextC hidxC hdropB2
    obtain ⟨sD, tsr, hrunD, htextD, hidxD, hgramr⟩ := ihr sC rest hdropC hrest
    refine ⟨sD, simpleTok tt sA.pos :: (tsf ++ tsr), ?_, ?_, ?_, ?_⟩
    · intro acc
      rw [hwsA _, hopstep _, hwsB _, hrunC _, hrunD _]
      simp
    · rw [htextD, htextC, htextB, lexAdvance_text, htextA]
    · rw [hidxD, hidxC, hidxB, lexAdvance_idx, hidxA]
      simp [List.length_append, List.length_cons]
      omega
    · have := Gram.tcons tt _ _ httmd hgramf hgramr
      simpa [List.map_append] using this
  | term f r hf hr ihf ihr =>
    intro s rest hdrop hrest
    have hdrop0 : s.text.drop s.pos.idx = f ++ (r ++ rest) := by
      rw [hdrop]; simp
    have hrestf : ∀ c', (r ++ rest).head? = some c' → c' ∉ numChars :=
      head_append_notnum (vg3_head_notnum hr) hrest
    obtain ⟨sA, tsf, hrunA, htextA, hidxA, hgramf⟩ := ihf s (r ++ rest) hdrop0 hrestf
    have hdropA : sA.text.drop sA.pos.idx = r ++ rest :=
      drop_at_state htextA hidxA hdrop0
    obtain ⟨sB, tsr, hrunB, htextB, hidxB, hgramr⟩ := ihr sA rest hdropA hrest
    refine ⟨sB, tsf ++ tsr, ?_, ?_, ?_, ?_⟩
    · intro acc
      rw [hrunA _, hrunB _, List.append_assoc]
    · rw [htextB, htextA]
    · rw [hidxB, hidxA]
      simp [List.length_append]
      omega
    · have := Gram.term _ _ hgramf hgramr
      simpa [List.map_append] using this
  | enil =>
    intro s rest hdrop hrest
    exact ⟨s, [], fun acc => by rw [List.append_nil], rfl, by simp, Gram.enil⟩
  | econs w1 w2 c a r hw1 hcpm hw2 ha hr iha ihr =>
    intro s rest hdrop hrest
    have hdrop0 : s.text.drop s.pos.idx =
        w1 ++ (c :: (w2 ++ (a ++ (r ++ rest)))) := by
      rw [hdrop]; simp
    obtain ⟨sA, hwsA, htextA, hidxA⟩ := mtRun_ws_chunk w1 s
      (c :: (w2 ++ (a ++ (r ++ rest)))) hw1 hdrop0
    have hdropA : sA.text.drop sA.pos.idx = c :: (w2 ++ (a ++ (r ++ rest))) :=
      drop_at_state htextA hidxA hdrop0
    have hcA : cur sA = some c := drop_cons_cur hdropA
    obtain ⟨tt, hopstep, httpm⟩ :
        ∃ tt, (∀ acc, mtRun sA acc =
            mtRun (lexAdvance sA) (acc ++ [simpleTok tt sA.pos])) ∧
          (tt = TT_PLUS ∨ tt = TT_MINUS) := by
      rcases hcpm with rfl | rfl
      · exact ⟨TT_PLUS, fun acc => mtRun_op hcA (by decide), Or.inl rfl⟩
      · exact ⟨TT_MINUS, fun acc => mtRun_op hcA (by decide), Or.inr rfl⟩
    have hdropB := drop_advance hdropA
    obtain ⟨sB, hwsB, htextB, hidxB⟩ := mtRun_ws_chunk w2 (lexAdvance sA)
      (a ++ (r ++ rest)) hw2 hdropB
    have hdropB2 : sB.text.drop sB.pos.idx = a ++ (r ++ rest) :=
      drop_at_state htextB hidxB hdropB
    have hresta : ∀ c', (r ++ rest).head? = some c' → c' ∉ numChars :=
      head_append_notnum (vg4_head_notnum hr) hrest
    obtain ⟨sC, tsa, hrunC, htextC, hidxC, hgrama⟩ := iha sB (r ++ rest) hdropB2 hresta
    have hdropC : sC.text.drop sC.pos.idx = r ++ rest :=
      drop_at_state htextC hidxC hdropB2
    obtain ⟨sD, tsr, hrunD, htextD, hidxD, hgramr⟩ := ihr sC rest hdropC hrest
    refine ⟨sD, simpleTok tt sA.pos :: (tsa ++ tsr), ?_, ?_, ?_, ?_⟩
    · intro acc
      rw [hwsA _, hopstep _, hwsB _, hrunC _, hrunD _]
      simp
    · rw [htextD, htextC, htextB, lexAdvance_text, htextA]
    · rw [hidxD, hidxC, hidxB, lexAdvance_idx, hidxA]
      simp [List.length_append, List.length_cons]
      omega
    · have := Gram.econs tt _ _ httpm hgrama hgramr
      simpa [List.map_append] using this
  | expr a r ha hr iha ihr =>
    intro s rest hdrop hrest
    have hdrop0 : s.text.drop s.pos.idx = a ++ (r ++ rest) := by
      rw [hdrop]; simp
    have hresta : ∀ c', (r ++ rest).head? = some c' → c' ∉ numChars :=
      head_append_notnum (vg4_head_notnum hr) hrest
    obtain ⟨sA, tsa, hrunA, htextA, hidxA, hgrama⟩ := iha s (r ++ rest) hdrop0 hresta
    have hdropA : sA.text.drop sA.pos.idx = r ++ rest :=
      drop_at_state htextA hidxA hdrop0
    obtain ⟨sB, tsr, hrunB, htextB, hidxB, hgramr⟩ := ihr sA rest hdropA hrest
    refine ⟨sB, tsa ++ tsr, ?_, ?_, ?_, ?_⟩
    · intro acc
      rw [hrunA _, hrunB _, List.append_assoc]
    · rw [htextB, htextA]
    · rw [hidxB, hidxA]
      simp [List.length_append]
      omega
    · have := Gram.expr _ _ hgrama hgramr
      simpa [List.map_append] using this

/-! ## Fuel monotonicity of the recursive descent -/

theorem bol_mono (f f' : PSt → Option (ParseResult × PSt)) (ops : List String)
    (hff : ∀ st r, f st = some r → f' st = some r) :
    ∀ (g : Nat) {g' : Nat} {res : ParseResult} {left : Option Node} {st : PSt}
      {r : ParseResult × PSt},
      bin_op_loop f ops g res left st = some r → g ≤ g' →
      bin_op_loop f' ops g' res left st = some r := by
  intro g
  induction g with
  | zero => intro g' res left st r h; simp [bin_op_loop] at h
  | succ n ih =>
    intro g' res left st r h hle
    obtain ⟨m, rfl⟩ : ∃ m, g' = m + 1 := ⟨g' - 1, by omega⟩
    rw [bin_op_loop] at h ⊢
    by_cases hop : st.1.type ∈ ops
    · simp only [if_pos hop] at h ⊢
      cases hfs : f (pAdvance st) with
      | none => rw [hfs] at h; simp at h
      | some p =>
        rw [hfs] at h
        rw [hff _ _ hfs]
        obtain ⟨sub, st2⟩ := p
        by_cases he : (registerPR res sub).1.error.isSome
        · simp only [he, if_true] at h ⊢; exact h
        · simp only [he, if_false] at h ⊢
          exact ih h (by omega)
    · simp only [if_neg hop] at h ⊢; exact h

theorem bin_op_mono (f f' : PSt → Option (ParseResult × PSt)) (ops : List String)
    (hff : ∀ st r, f st = some r → f' st = some r) :
    ∀ (g : Nat) {g' : Nat} {st : PSt} {r : ParseResult × PSt},
      bin_op f ops g st = some r → g ≤ g' → bin_op f' ops g' st = some r := by
  intro g
  cases g with
  | zero => intro g' st r h; simp [bin_op] at h
  | succ n =>
    intro g' st r h hle
    obtain ⟨m, rfl⟩ : ∃ m, g' = m + 1 := ⟨g' - 1, by omega⟩
    rw [bin_op] at h ⊢
    cases hfs : f st with
    | none => rw [hfs] at h; simp at h
    | some p =>
      rw [hfs] at h
      rw [hff _ _ hfs]
      obtain ⟨sub, st1⟩ := p
      by_cases he : (registerPR ⟨none, none⟩ sub).1.error.isSome
      · simp only [he, if_true] at h ⊢; exact h
      · simp only [he, if_false] at h ⊢
        exact bol_mono f f' ops hff n h (by omega)

theorem parseFn_mono : ∀ (fuel : Nat) {fuel' : Nat} (k : PFn) {st : PSt}
    {r : ParseResult × PSt},
    parseFn fuel k st = some r → fuel ≤ fuel' → parseFn fuel' k st = some r := by
  intro fuel
  induction fuel with
  | zero => intro fuel' k st r h; simp [parseFn] at h
  | succ n ih =>
    intro fuel' k st r h hle
    obtain ⟨m, rfl⟩ : ∃ m, fuel' = m + 1 := ⟨fuel' - 1, by omega⟩
    cases k with
    | pfactor =>
      rw [parseFn] at h ⊢
      by_cases hpm : st.1.type = TT_PLUS ∨ st.1.type = TT_MINUS
      · simp only [if_pos hpm] at h ⊢
        cases hfs : parseFn n .pfactor (pAdvance st) with
        | none => rw [hfs] at h; simp at h
        | some p =>
          rw [hfs] at h
          rw [ih .pfactor hfs (by omega)]
          exact h
      · simp only [if_neg hpm] at h ⊢
        by_cases hif : st.1.type = TT_INT ∨ st.1.type = TT_FLOAT
        · simp only [if_pos hif] at h ⊢; exact h
        · simp only [if_neg hif] at h ⊢
          by_cases hlp : st.1.type = TT_LPAREN
          · simp only [if_pos hlp] at h ⊢
            cases hfs : parseFn n .pexpr (pAdvance st) with
            | none => rw [hfs] at h; simp at h
            | some p =>
              rw [hfs] at h
              rw [ih .pexpr hfs (by omega)]
              exact h
          · simp only [if_neg hlp] at h ⊢; exact h
    | pterm =>
      rw [parseFn] at h ⊢
      exact bin_op_mono _ _ _ (fun st r hh => ih .pfactor hh (by omega)) n h (by omega)
    | pexpr =>
      rw [parseFn] at h ⊢
      exact bin_op_mono _ _ _ (fun st r hh => ih .pterm hh (by omega)) n h (by omega)

/-! ## C4: grammar inputs parse successfully -/

theorem gram0_ne_nil {l : List String} (h : Gram 0 l) : l ≠ [] := by
  cases h <;> simp

theorem gram1_ne_nil {l : List String} (h : Gram 1 l) : l ≠ [] := by
  cases h with
  | term f r hf hr =>
    intro hnil
    rcases List.append_eq_nil.mp hnil with ⟨h1, _⟩
    exact gram0_ne_nil hf h1

theorem gram2_ne_nil {l : List String} (h : Gram 2 l) : l ≠ [] := by
  cases h with
  | expr a r ha hr =>
    intro hnil
    rcases List.append_eq_nil.mp hnil with ⟨h1, _⟩
    exact gram1_ne_nil ha h1

/-- C4: for every valid arithmetic expression of the grammar — integer
and decimal literals, binary and unary `+ - * /`, balanced parentheses,
spaces/tabs as the only whitespace — `run` returns a non-null AST and a
null error. -/
theorem C4_valid_exprs_parse : ∀ (text : List Char), ValidExprString text →
    ∃ n, run text = some (some n, none) := by
  intro text hv
  obtain ⟨w1, w2, core, hw1, hw2, hcore, rfl⟩ := hv
  have hdrop0 : (mkLexer (w1 ++ core ++ w2)).text.drop
      (mkLexer (w1 ++ core ++ w2)).pos.idx = w1 ++ (core ++ w2) := by
    simp [mkLexer]
  obtain ⟨s1, hwsA, htext1, hidx1⟩ := mtRun_ws_chunk w1
    (mkLexer (w1 ++ core ++ w2)) (core ++ w2) hw1 hdrop0
  have hdrop1 : s1.text.drop s1.pos.idx = core ++ w2 :=
    drop_at_state htext1 hidx1 hdrop0
  obtain ⟨s2, ts, hrun2, htext2, hidx2, hgram⟩ :=
    lex_main 2 core hcore s1 w2 hdrop1 (ws_head_notnum hw2)
  have hdrop2 : s2.text.drop s2.pos.idx = w2 ++ [] := by
    rw [List.append_nil]
    exact drop_at_state htext2 hidx2 hdrop1
  obtain ⟨s3, hws3, htext3, hidx3⟩ := mtRun_ws_chunk w2 s2 [] hw2 hdrop2
  have hdrop3 : s3.text.drop s3.pos.idx = [] :=
    drop_at_state htext3 hidx3 hdrop2
  have hc3 : cur s3 = none := by rw [cur_eq_head_drop, hdrop3]; rfl
  have hle3 : s3.pos.idx ≤ s3.text.length := by
    rw [htext3, htext2, htext1, hidx3, hidx2, hidx1]
    simp [mkLexer, List.length_append]
    omega
  have hmt : make_tokens (mkLexer (w1 ++ core ++ w2)) =
      some (ts ++ [simpleTok TT_EOF s3.pos], none, s3) := by
    show mtRun (mkLexer (w1 ++ core ++ w2)) [] = _
    rw [hwsA [], hrun2 [], hws3 _, mtRun_eof hc3 hle3]
    simp
  have hne : ts ≠ [] := by
    intro hnil
    rw [hnil] at hgram
    exact gram2_ne_nil hgram rfl
  obtain ⟨t0, ts', rfl⟩ : ∃ t0 ts', ts = t0 :: ts' := by
    cases ts with
    | nil => exact absurd rfl hne
    | cons a b => exact ⟨a, b, rfl⟩
  obtain ⟨N, hN⟩ := pc_main 2 _ hgram (t0 :: ts') (simpleTok TT_EOF s3.pos) []
    (t0, ts' ++ [simpleTok TT_EOF s3.pos]) rfl (by simp)
    (by simp [simpleTok, TT_EOF, TT_MUL, TT_DIV])
    (by simp [simpleTok, TT_EOF, TT_PLUS, TT_MINUS])
  have heof2 : lastIsEOF (t0, ts' ++ [simpleTok TT_EOF s3.pos]) := by
    unfold lastIsEOF
    show ((ts' ++ [simpleTok TT_EOF s3.pos]).getLastD t0).type = TT_EOF
    rw [List.getLastD_eq_getLast?, List.getLast?_concat]
    rfl
  have hsuff := (parseFn_suff (ts' ++ [simpleTok TT_EOF s3.pos]).length).2.2
    (t0, ts' ++ [simpleTok TT_EOF s3.pos]) (le_refl _) heof2
    (parseFuel (t0 :: (ts' ++ [simpleTok TT_EOF s3.pos])))
    (by simp [parseFuel])
  obtain ⟨q, hq⟩ := Option.isSome_iff_exists.mp hsuff
  obtain ⟨res, st0⟩ := q
  obtain ⟨n, hn⟩ := hN
    (max N (parseFuel (t0 :: (ts' ++ [simpleTok TT_EOF s3.pos]))))
    (le_max_left _ _)
  have hq' := parseFn_mono _ .pexpr hq (le_max_right N _)
  rw [hn] at hq'
  obtain ⟨h1, h2⟩ := Prod.mk.injEq .. ▸ Option.some.inj hq'
  refine ⟨n, ?_⟩
  have hparse : parse (t0 :: (ts' ++ [simpleTok TT_EOF s3.pos])) =
      some (res, st0) := by
    simp only [parse, hq]
    rw [if_neg ?hcond]
    case hcond =>
      intro hcontra
      apply hcontra.2
      rw [← h2]
      rfl
  show run (w1 ++ core ++ w2) = some (some n, none)
  simp only [run]
  rw [hmt]
  simp only []
  rw [List.cons_append, hparse]
  rw [← h1]

/-- Witness for C4: the concrete valid expression `"1+2"` satisfies the
grammar predicate and `run` succeeds on it with a non-null AST and a
null error. -/
theorem C4_valid_exprs_parse_witness :
    ValidExprString ['1', '+', '2'] ∧
      ∃ n, run ['1', '+', '2'] = some (some n, none) := by
  have h01 : VG 0 ['1'] := VG.int ['1'] (by simp) (by decide)
  have h02 : VG 0 ['2'] := VG.int ['2'] (by simp) (by decide)
  have ht1 : VG 1 (['1'] ++ []) := VG.term ['1'] [] h01 VG.tnil
  have ht2 : VG 1 (['2'] ++ []) := VG.term ['2'] [] h02 VG.tnil
  have he4 : VG 4 ([] ++ '+' :: [] ++ (['2'] ++ []) ++ []) :=
    VG.econs [] [] '+' (['2'] ++ []) [] (by simp [wsOnly]) (Or.inl rfl)
      (by simp [wsOnly]) ht2 VG.enil
  have hcore : VG 2 (['1', '+', '2'] : List Char) :=
    VG.expr (['1'] ++ []) ([] ++ '+' :: [] ++ (['2'] ++ []) ++ []) ht1 he4
  have hv : ValidExprString ['1', '+', '2'] :=
    ⟨[], [], ['1', '+', '2'], by simp [wsOnly], by simp [wsOnly], hcore, by simp⟩
  exact ⟨hv, C4_valid_exprs_parse ['1', '+', '2'] hv⟩

end Yohaan
